import Mathlib

/-!
Verification of the natural-language specification of the
Bitcoin_miniBlockchain repository (Go) against a shallow embedding of its
source in Lean 4.

Conventions of the embedding:
* Go byte slices are `List Nat` with entries below 256 (nil and the empty
  slice are both `[]` except where the distinction matters, in which case
  `Option` is used, mirroring which of the two the Go code tests for).
* Go `int` is `Int`.
* Library calls into Go's standard library that the repository does not
  define (ECDSA, elliptic-curve marshalling, gob serialization,
  RIPEMD-160) are abstract parameters of the embedding; SHA-256 is
  implemented concretely below (FIPS 180-4) because several claims depend
  on actual digest values.
* Fallible / panicking code returns `Except String` or `Option`.
-/

set_option maxRecDepth 16000

namespace MiniChain

abbrev Bytes := List Nat

/-! ## SHA-256 (crypto/sha256), FIPS 180-4, words as `Nat` modulo 2^32 -/

/-- Truncate to a 32-bit word. -/
def u32 (x : Nat) : Nat := x % 4294967296

/-- Right-rotation of a 32-bit word. -/
def rotr (n x : Nat) : Nat := (x >>> n) + (x % 2 ^ n) * 2 ^ (32 - n)

def ch (x y z : Nat) : Nat := (x &&& y) ^^^ ((4294967295 - x) &&& z)

def maj (x y z : Nat) : Nat := (x &&& y) ^^^ (x &&& z) ^^^ (y &&& z)

def bsig0 (x : Nat) : Nat := rotr 2 x ^^^ rotr 13 x ^^^ rotr 22 x

def bsig1 (x : Nat) : Nat := rotr 6 x ^^^ rotr 11 x ^^^ rotr 25 x

def ssig0 (x : Nat) : Nat := rotr 7 x ^^^ rotr 18 x ^^^ (x >>> 3)

def ssig1 (x : Nat) : Nat := rotr 17 x ^^^ rotr 19 x ^^^ (x >>> 10)

/-- The 64 round constants of FIPS 180-4 (decimal). -/
def sha256K : List Nat :=
  [1116352408, 1899447441, 3049323471, 3921009573, 961987163, 1508970993,
   2453635748, 2870763221, 3624381080, 310598401, 607225278, 1426881987,
   1925078388, 2162078206, 2614888103, 3248222580, 3835390401, 4022224774,
   264347078, 604807628, 770255983, 1249150122, 1555081692, 1996064986,
   2554220882, 2821834349, 2952996808, 3210313671, 3336571891, 3584528711,
   113926993, 338241895, 666307205, 773529912, 1294757372, 1396182291,
   1695183700, 1986661051, 2177026350, 2456956037, 2730485921, 2820302411,
   3259730800, 3345764771, 3516065817, 3600352804, 4094571909, 275423344,
   430227734, 506948616, 659060556, 883997877, 958139571, 1322822218,
   1537002063, 1747873779, 1955562222, 2024104815, 2227730452, 2361852424,
   2428436474, 2756734187, 3204031479, 3329325298]

/-- The 8 initial hash words of FIPS 180-4 (decimal). -/
def sha256H0 : List Nat :=
  [1779033703, 3144134277, 1013904242, 2773480762,
   1359893119, 2600822924, 528734635, 1541459225]

/-- Append the 0x80 marker, the zero padding and the 64-bit big-endian bit
length, reaching a multiple of 64 bytes. -/
def sha256pad (ms : Bytes) : Bytes :=
  let l := ms.length
  let k := (119 - l % 64) % 64
  ms ++ (128 :: List.replicate k 0) ++
    (List.range 8).map (fun i => ((8 * l) >>> (8 * (7 - i))) % 256)

/-- Big-endian 32-bit words from bytes (length a multiple of 4). -/
def toWords : Bytes → List Nat
  | b0 :: b1 :: b2 :: b3 :: rest =>
      (((b0 * 256 + b1) * 256 + b2) * 256 + b3) :: toWords rest
  | _ => []

/-- Message-schedule extension, accumulator most-recent-first. -/
def scheduleRev : Nat → List Nat → List Nat
  | 0, acc => acc
  | n + 1, acc =>
      scheduleRev n
        (u32 (ssig1 (acc.getD 1 0) + acc.getD 6 0 + ssig0 (acc.getD 14 0) + acc.getD 15 0) :: acc)

def sha256round (st : List Nat) (k w : Nat) : List Nat :=
  match st with
  | [a, b, c, d, e, f, g, h] =>
      let t1 := u32 (h + bsig1 e + ch e f g + k + w)
      let t2 := u32 (bsig0 a + maj a b c)
      [u32 (t1 + t2), a, b, c, u32 (d + t1), e, f, g]
  | other => other

def sha256compress (hs ws16 : List Nat) : List Nat :=
  let ws := (scheduleRev 48 ws16.reverse).reverse
  let st := (sha256K.zip ws).foldl (fun s kw => sha256round s kw.1 kw.2) hs
  (hs.zip st).map (fun p => u32 (p.1 + p.2))

def sha256blocksAux : Nat → List Nat → List Nat → List Nat
  | 0, hs, _ => hs
  | fuel + 1, hs, ws =>
      match ws with
      | [] => hs
      | _ :: _ => sha256blocksAux fuel (sha256compress hs (ws.take 16)) (ws.drop 16)

/-- SHA-256 of a byte string. -/
def sha256 (ms : Bytes) : Bytes :=
  let ws := toWords (sha256pad ms)
  let hs := sha256blocksAux ws.length sha256H0 ws
  hs.flatMap (fun w => [(w >>> 24) % 256, (w >>> 16) % 256, (w >>> 8) % 256, w % 256])

/-- Known-answer test: SHA-256 of the empty string. -/
theorem sha256_empty :
    sha256 [] =
      [0xe3, 0xb0, 0xc4, 0x42, 0x98, 0xfc, 0x1c, 0x14, 0x9a, 0xfb, 0xf4, 0xc8,
       0x99, 0x6f, 0xb9, 0x24, 0x27, 0xae, 0x41, 0xe4, 0x64, 0x9b, 0x93, 0x4c,
       0xa4, 0x95, 0x99, 0x1b, 0x78, 0x52, 0xb8, 0x55] := by decide

/-- Known-answer test: SHA-256 of "abc". -/
theorem sha256_abc :
    sha256 [97, 98, 99] =
      [0xba, 0x78, 0x16, 0xbf, 0x8f, 0x01, 0xcf, 0xea, 0x41, 0x41, 0x40, 0xde,
       0x5d, 0xae, 0x22, 0x23, 0xb0, 0x03, 0x61, 0xa3, 0x96, 0x17, 0x7a, 0x9c,
       0xb4, 0x10, 0xff, 0x61, 0xf2, 0x00, 0x15, 0xad] := by decide

/-! ## Base58 (src/wallet/base58.go) -/

/-- Byte values of "123456789ABCDEFGHJKLMNPQRSTUVWXYZabcdefghijkmnopqrstuvwxyz". -/
def b58Alphabet : List Nat :=
  [49, 50, 51, 52, 53, 54, 55, 56, 57,
   65, 66, 67, 68, 69, 70, 71, 72,
   74, 75, 76, 77, 78,
   80, 81, 82, 83, 84, 85, 86, 87, 88, 89, 90,
   97, 98, 99, 100, 101, 102, 103, 104, 105, 106, 107,
   109, 110, 111, 112, 113, 114, 115, 116, 117, 118, 119, 120, 121, 122]

/-- big.Int.SetBytes: big-endian interpretation of a byte string. -/
def bytesToNat (l : Bytes) : Nat := l.foldl (fun acc b => acc * 256 + b) 0

/-- The repeated DivMod loop of Base58Encode (and big.Int.Bytes), producing
base-b digits least-significant first. `fuel` only bounds the recursion; the
loop stops at zero exactly as the source does. -/
def natDigitsBase (b : Nat) : Nat → Nat → List Nat
  | 0, _ => []
  | fuel + 1, n => if n = 0 then [] else n % b :: natDigitsBase b fuel (n / b)

/-- Count of leading bytes equal to `v` (the leading-zero / leading-'1' loops). -/
def leadingCount (v : Nat) : Bytes → Nat
  | [] => 0
  | b :: rest => if b = v then leadingCount v rest + 1 else 0

def Base58Encode (input : Bytes) : Bytes :=
  ((natDigitsBase 58 (2 * input.length) (bytesToNat input)).map (fun d => b58Alphabet.getD d 0) ++
    List.replicate (leadingCount 0 input) 49).reverse

/-- bytes.IndexByte over the alphabet. -/
def b58IndexAux (l : List Nat) (b i : Nat) : Option Nat :=
  match l with
  | [] => none
  | a :: rest => if a = b then some i else b58IndexAux rest b (i + 1)

def b58Index (b : Nat) : Option Nat := b58IndexAux b58Alphabet b 0

/-- The accumulation loop of Base58Decode; `none` models the early `return nil`
on a byte outside the alphabet. -/
def b58ToNat : Bytes → Nat → Option Nat
  | [], acc => some acc
  | b :: rest, acc =>
      match b58Index b with
      | none => none
      | some i => b58ToNat rest (acc * 58 + i)

def Base58Decode (input : Bytes) : Option Bytes :=
  match b58ToNat input 0 with
  | none => none
  | some v =>
      some (List.replicate (leadingCount 49 input) 0 ++ (natDigitsBase 256 input.length v).reverse)

/-- Sanity: a round trip on a value with a leading zero byte. -/
theorem base58_roundtrip_test : Base58Decode (Base58Encode [0, 1, 255]) = some [0, 1, 255] := by
  decide

/-! ## Wallet address validation (src/wallet/wallet.go) -/

/-- checksum: first 4 bytes of SHA-256(SHA-256(payload)). -/
def checksum (payload : Bytes) : Bytes := (sha256 (sha256 payload)).take 4

def ValidateAddress (address : Bytes) : Bool :=
  match Base58Decode address with
  | none => false
  | some decoded =>
      if decoded.length < 1 + 4 then false
      else decide (decoded.drop (decoded.length - 4) = checksum (decoded.take (decoded.length - 4)))

def PubKeyHashFromAddress (address : Bytes) : Option Bytes :=
  match Base58Decode address with
  | none => none
  | some decoded =>
      if decoded.length < 1 + 4 then none
      else some ((decoded.drop 1).take (decoded.length - 4 - 1))

/-! ### Base58 round-trip lemmas -/

/-- The leading bytes of `x` equal to `v`, the remainder after them. -/
def stripLeading (v : Nat) : Bytes → Bytes
  | [] => []
  | b :: rest => if b = v then stripLeading v rest else b :: rest

theorem replicate_append_strip (v : Nat) :
    ∀ x : Bytes, List.replicate (leadingCount v x) v ++ stripLeading v x = x := by
  intro x
  induction x with
  | nil => rfl
  | cons b rest ih =>
      by_cases hb : b = v
      · subst hb; simp [leadingCount, stripLeading, List.replicate_succ, ih]
      · simp [leadingCount, stripLeading, hb]

theorem stripLeading_head (v : Nat) :
    ∀ x : Bytes, stripLeading v x = [] ∨ ∃ c rest, stripLeading v x = c :: rest ∧ c ≠ v := by
  intro x
  induction x with
  | nil => exact Or.inl rfl
  | cons b rest ih =>
      by_cases hb : b = v
      · simpa [stripLeading, hb] using ih
      · exact Or.inr ⟨b, rest, by simp [stripLeading, hb], hb⟩

theorem mem_stripLeading {v d : Nat} : ∀ {x : Bytes}, d ∈ stripLeading v x → d ∈ x := by
  intro x
  induction x with
  | nil => simp [stripLeading]
  | cons b rest ih =>
      by_cases hb : b = v
      · intro h
        simp only [stripLeading, hb, if_pos rfl] at h
        exact List.mem_cons_of_mem _ (ih h)
      · simp [stripLeading, hb]

theorem leadingCount_replicate (v k : Nat) : leadingCount v (List.replicate k v) = k := by
  induction k with
  | zero => rfl
  | succ k ih => simp [List.replicate_succ, leadingCount, ih]

theorem leadingCount_replicate_append (v k c : Nat) (rest : Bytes) (hc : c ≠ v) :
    leadingCount v (List.replicate k v ++ c :: rest) = k := by
  induction k with
  | zero => simp [leadingCount, hc]
  | succ k ih => simp [List.replicate_succ, leadingCount, ih]

theorem bytesToNat_strip (x : Bytes) : bytesToNat x = bytesToNat (stripLeading 0 x) := by
  induction x with
  | nil => rfl
  | cons b rest ih =>
      by_cases hb : b = 0
      · subst hb; simpa [bytesToNat, stripLeading] using ih
      · simp [stripLeading, hb]

theorem natDigitsBase_zero (b fuel : Nat) : natDigitsBase b fuel 0 = [] := by
  cases fuel <;> simp [natDigitsBase]

theorem natDigitsBase_eq_digits {b : Nat} (hb : 2 ≤ b) :
    ∀ fuel n, n < b ^ fuel → natDigitsBase b fuel n = Nat.digits b n := by
  intro fuel
  induction fuel with
  | zero =>
      intro n hn
      have hn0 : n = 0 := by simpa using Nat.lt_one_iff.mp (by simpa using hn)
      subst hn0
      simp [natDigitsBase]
  | succ fuel ih =>
      intro n hn
      by_cases h0 : n = 0
      · subst h0; simp [natDigitsBase]
      · rw [natDigitsBase, if_neg h0, Nat.digits_def' (by omega) (Nat.pos_of_ne_zero h0)]
        have hdiv : n / b < b ^ fuel := by
          rw [Nat.div_lt_iff_lt_mul (by omega)]
          calc n < b ^ (fuel + 1) := hn
            _ = b ^ fuel * b := by ring
        rw [ih _ hdiv]

theorem foldl_base_eq (b : Nat) :
    ∀ (l : List Nat) (a : Nat),
      l.foldl (fun acc d => acc * b + d) a = a * b ^ l.length + Nat.ofDigits b l.reverse := by
  intro l
  induction l with
  | nil => intro a; simp [Nat.ofDigits]
  | cons d t ih =>
      intro a
      rw [List.foldl_cons, ih, List.reverse_cons, Nat.ofDigits_append]
      simp [Nat.ofDigits_singleton, pow_succ]
      ring

theorem foldl_base_lt (b : Nat) :
    ∀ (l : List Nat) (a : Nat), (∀ d ∈ l, d < b) →
      l.foldl (fun acc d => acc * b + d) a < (a + 1) * b ^ l.length := by
  intro l
  induction l with
  | nil => intro a _; simp
  | cons d t ih =>
      intro a hd
      have hdb : d < b := hd d (List.mem_cons_self d t)
      have ht : ∀ x ∈ t, x < b := fun x hx => hd x (List.mem_cons_of_mem _ hx)
      calc (d :: t).foldl (fun acc x => acc * b + x) a
          = t.foldl (fun acc x => acc * b + x) (a * b + d) := by rw [List.foldl_cons]
        _ < (a * b + d + 1) * b ^ t.length := ih _ ht
        _ ≤ ((a + 1) * b) * b ^ t.length := by
            have : a * b + d + 1 ≤ (a + 1) * b := by nlinarith
            exact Nat.mul_le_mul_right _ this
        _ = (a + 1) * b ^ (t.length + 1) := by ring
        _ = (a + 1) * b ^ (d :: t).length := by simp

theorem bytesToNat_eq_ofDigits (x : Bytes) : bytesToNat x = Nat.ofDigits 256 x.reverse := by
  simpa using foldl_base_eq 256 x 0

theorem bytesToNat_lt (x : Bytes) (hx : ∀ b ∈ x, b < 256) : bytesToNat x < 256 ^ x.length := by
  simpa using foldl_base_lt 256 x 0 hx

theorem b58Index_getD : ∀ d, d < 58 → b58Index (b58Alphabet.getD d 0) = some d := by decide

theorem b58Alphabet_getD_ne49 : ∀ d, d < 58 → d ≠ 0 → b58Alphabet.getD d 0 ≠ 49 := by decide

theorem b58ToNat_replicate49 :
    ∀ (k : Nat) (rest : Bytes), b58ToNat (List.replicate k 49 ++ rest) 0 = b58ToNat rest 0 := by
  intro k
  induction k with
  | zero => intro rest; rfl
  | succ k ih =>
      intro rest
      have h49 : b58Index 49 = some 0 := by decide
      simp only [List.replicate_succ, List.cons_append, b58ToNat, h49]
      simpa using ih rest

theorem b58ToNat_map (l : List Nat) :
    ∀ acc, (∀ d ∈ l, d < 58) →
      b58ToNat (l.map (fun d => b58Alphabet.getD d 0)) acc =
        some (l.foldl (fun a d => a * 58 + d) acc) := by
  induction l with
  | nil => intro acc _; rfl
  | cons d t ih =>
      intro acc hl
      have hd : d < 58 := hl d (List.mem_cons_self d t)
      have ht : ∀ x ∈ t, x < 58 := fun x hx => hl x (List.mem_cons_of_mem _ hx)
      simp only [List.map_cons, b58ToNat, b58Index_getD d hd]
      exact ih _ ht

theorem pow256_le_pow58 (n : Nat) : 256 ^ n ≤ 58 ^ (2 * n) := by
  calc 256 ^ n ≤ 3364 ^ n := Nat.pow_le_pow_left (by norm_num) _
    _ = 58 ^ (2 * n) := by rw [pow_mul]; norm_num

theorem Base58Encode_eq (x : Bytes) (hx : ∀ b ∈ x, b < 256) :
    Base58Encode x =
      List.replicate (leadingCount 0 x) 49 ++
        (Nat.digits 58 (bytesToNat x)).reverse.map (fun d => b58Alphabet.getD d 0) := by
  have hvlt : bytesToNat x < 58 ^ (2 * x.length) :=
    lt_of_lt_of_le (bytesToNat_lt x hx) (pow256_le_pow58 _)
  unfold Base58Encode
  rw [natDigitsBase_eq_digits (by norm_num) _ _ hvlt]
  simp [List.reverse_append]

/-- C8 round trip, general form: decoding an encoding recovers the input,
leading zero bytes included. -/
theorem Base58_roundtrip (x : Bytes) (hx : ∀ b ∈ x, b < 256) :
    Base58Decode (Base58Encode x) = some x := by
  have hx1mem : ∀ b ∈ stripLeading 0 x, b < 256 := fun b hb => hx b (mem_stripLeading hb)
  have hveq : bytesToNat x = Nat.ofDigits 256 (stripLeading 0 x).reverse := by
    rw [bytesToNat_strip x, bytesToNat_eq_ofDigits]
  have hdig256 : Nat.digits 256 (bytesToNat x) = (stripLeading 0 x).reverse := by
    rw [hveq]
    refine Nat.digits_ofDigits 256 (by norm_num) _ ?_ ?_
    · intro l hl; exact hx1mem l (List.mem_reverse.mp hl)
    · intro hne
      rcases stripLeading_head 0 x with h0 | ⟨c, rest, heq, hc⟩
      · exact absurd (by simp [h0]) hne
      · simp [heq, hc]
  rw [Base58Encode_eq x hx]
  have hfold :
      (Nat.digits 58 (bytesToNat x)).reverse.foldl (fun a d => a * 58 + d) 0 = bytesToNat x := by
    rw [foldl_base_eq]
    simp [Nat.ofDigits_digits]
  have hb58 :
      b58ToNat
        (List.replicate (leadingCount 0 x) 49 ++
          (Nat.digits 58 (bytesToNat x)).reverse.map (fun d => b58Alphabet.getD d 0)) 0 =
        some (bytesToNat x) := by
    rw [b58ToNat_replicate49,
      b58ToNat_map _ _ (fun d hd => Nat.digits_lt_base (by norm_num) (List.mem_reverse.mp hd)),
      hfold]
  have hv58 : bytesToNat x < 58 ^ (Nat.digits 58 (bytesToNat x)).length := by
    conv_lhs => rw [← Nat.ofDigits_digits 58 (bytesToNat x)]
    exact Nat.ofDigits_lt_base_pow_length (by norm_num)
      (fun d hd => Nat.digits_lt_base (by norm_num) hd)
  have hvltE : bytesToNat x <
      256 ^ (List.replicate (leadingCount 0 x) 49 ++
        (Nat.digits 58 (bytesToNat x)).reverse.map (fun d => b58Alphabet.getD d 0)).length := by
    have h1 : (58 : Nat) ^ (Nat.digits 58 (bytesToNat x)).length ≤
        256 ^ (Nat.digits 58 (bytesToNat x)).length := Nat.pow_le_pow_left (by norm_num) _
    have h2 : (256 : Nat) ^ (Nat.digits 58 (bytesToNat x)).length ≤
        256 ^ (List.replicate (leadingCount 0 x) 49 ++
          (Nat.digits 58 (bytesToNat x)).reverse.map (fun d => b58Alphabet.getD d 0)).length := by
      refine Nat.pow_le_pow_right (by norm_num) ?_
      simp
    exact lt_of_lt_of_le hv58 (le_trans h1 h2)
  simp only [Base58Decode, hb58]
  rw [natDigitsBase_eq_digits (by norm_num) _ _ hvltE, hdig256, List.reverse_reverse]
  have hlc :
      leadingCount 49
        (List.replicate (leadingCount 0 x) 49 ++
          (Nat.digits 58 (bytesToNat x)).reverse.map (fun d => b58Alphabet.getD d 0)) =
        leadingCount 0 x := by
    rcases stripLeading_head 0 x with h0 | ⟨c, rest, heq, hc⟩
    · have hv0 : bytesToNat x = 0 := by
        apply Nat.digits_eq_nil_iff_eq_zero.mp
        rw [hdig256, h0]
        simp
      rw [hv0]
      simp [leadingCount_replicate]
    · have hvne : bytesToNat x ≠ 0 := by
        intro h0
        rw [h0, heq] at hdig256
        simp [Nat.digits_zero] at hdig256
      have hDne : Nat.digits 58 (bytesToNat x) ≠ [] := Nat.digits_ne_nil_iff_ne_zero.mpr hvne
      obtain ⟨d0, ds, hrev⟩ : ∃ d0 ds, (Nat.digits 58 (bytesToNat x)).reverse = d0 :: ds := by
        cases hr : (Nat.digits 58 (bytesToNat x)).reverse with
        | nil =>
            exact absurd (by simpa using congrArg List.reverse hr) hDne
        | cons a b => exact ⟨a, b, rfl⟩
      have hd0mem : d0 ∈ Nat.digits 58 (bytesToNat x) := by
        rw [← List.mem_reverse, hrev]
        exact List.mem_cons_self _ _
      have hd0lt : d0 < 58 := Nat.digits_lt_base (by norm_num) hd0mem
      have hd0ne : d0 ≠ 0 := by
        have hgl := Nat.getLast_digit_ne_zero 58 hvne
        have hh : (Nat.digits 58 (bytesToNat x)).getLast hDne = d0 := by
          rw [List.getLast_eq_head_reverse]
          simp [hrev]
        rwa [hh] at hgl
      rw [hrev, List.map_cons]
      exact leadingCount_replicate_append 49 _ _ _ (b58Alphabet_getD_ne49 d0 hd0lt hd0ne)
  rw [hlc, replicate_append_strip]

/-! ## Merkle tree (merkle part of src/unnamed/part_000) -/

inductive MNode where
  | leaf (data : Bytes)
  | node (l r : MNode) (data : Bytes)

def MNode.data : MNode → Bytes
  | .leaf d => d
  | .node _ _ d => d

/-- NewMerkleNode: with no children the node hashes `data`; with two children
it hashes the concatenation of the children's Data. (A single nil child would
dereference nil in Go; no caller produces that shape and the mixed cases here
fold into the childless branch, which is dead code for them.) -/
def NewMerkleNode (left right : Option MNode) (data : Bytes) : MNode :=
  match left, right with
  | some l, some r => .node l r (sha256 (l.data ++ r.data))
  | _, _ => .leaf (sha256 data)

/-- One pairing pass of the tree-building loop (nodes at even count). -/
def mergePairs : List MNode → List MNode
  | d1 :: d2 :: rest => NewMerkleNode (some d1) (some d2) [] :: mergePairs rest
  | l => l

/-- The `for len(nodes) > 1` loop; `fuel` bounds iteration count, the loop
itself stops exactly when one node remains, duplicating the last node at odd
levels as the source does. -/
def buildLevels : Nat → List MNode → List MNode
  | 0, nodes => nodes
  | fuel + 1, nodes =>
      if nodes.length ≤ 1 then nodes
      else
        buildLevels fuel
          (mergePairs (if nodes.length % 2 ≠ 0 then nodes ++ nodes.getLastD (.leaf []) :: [] else nodes))

/-- NewMerkleTree, returning the root node. -/
def NewMerkleTree (data : List Bytes) : MNode :=
  if data.isEmpty then NewMerkleNode none none (sha256 [])
  else
    (buildLevels data.length (data.map (fun datum => NewMerkleNode none none datum))).headD
      (.leaf [])

/-! ## Transactions (src/unnamed/part_001)

The gob serializer, ECDSA and point (un)marshalling are Go standard-library
calls, modelled as parameters: `ser` for the canonical serialization,
`ecdsaSign`/`verifyASN1`/`unmarshalPt` for the signature scheme. -/

/-- Equality on `Except` results is decidable when it is on both components
(used to evaluate the embedded Sign/Verify at concrete inputs). -/
instance exceptDecEq {ε α : Type} [DecidableEq ε] [DecidableEq α] :
    DecidableEq (Except ε α) := fun a b =>
  match a, b with
  | .ok x, .ok y =>
      if h : x = y then .isTrue (by rw [h]) else .isFalse (by intro hc; cases hc; exact h rfl)
  | .error x, .error y =>
      if h : x = y then .isTrue (by rw [h]) else .isFalse (by intro hc; cases hc; exact h rfl)
  | .ok _, .error _ => .isFalse (by intro hc; cases hc)
  | .error _, .ok _ => .isFalse (by intro hc; cases hc)

structure TxInput where
  Txid : Bytes
  Vout : Int
  Signature : Bytes
  PubKey : Bytes
deriving DecidableEq

structure TxOutput where
  Value : Int
  PubKeyHash : Bytes
deriving DecidableEq

structure Transaction where
  ID : Bytes
  Vin : List TxInput
  Vout : List TxOutput
deriving DecidableEq

/-- Go zero values (nil slices as `[]`). -/
instance : Inhabited TxInput := ⟨⟨[], 0, [], []⟩⟩

instance : Inhabited TxOutput := ⟨⟨0, []⟩⟩

instance : Inhabited Transaction := ⟨⟨[], [], []⟩⟩

def TxInput.UsesKey (hashPubKey : Bytes → Bytes) (input : TxInput) (pubKeyHash : Bytes) : Bool :=
  decide (hashPubKey input.PubKey = pubKeyHash)

def TxOutput.IsLockedWithKey (out : TxOutput) (pubKeyHash : Bytes) : Bool :=
  decide (out.PubKeyHash = pubKeyHash)

def Transaction.IsCoinbase (tx : Transaction) : Bool :=
  decide (tx.Vin.length = 1) && decide ((tx.Vin.headD default).Txid = []) &&
    decide ((tx.Vin.headD default).Vout = -1)

/-- hex.EncodeToString (lowercase hex digits, as byte values). -/
def hexDigit (d : Nat) : Nat := if d < 10 then 48 + d else 87 + d

def hexEncode (l : Bytes) : Bytes := l.flatMap (fun b => [hexDigit (b / 16), hexDigit (b % 16)])

/-- First-match association lookup (a Go map has unique keys, so any
association list with distinct keys represents it). -/
def findEntry : List (Bytes × Transaction) → Bytes → Option Transaction
  | [], _ => none
  | (k, t) :: rest, key => if k = key then some t else findEntry rest key

/-- `prevTXs[hex.EncodeToString(txid)]`: a miss yields the zero Transaction,
whose ID is nil — exactly what the source's `.ID == nil` check probes. -/
def lookupTx (m : List (Bytes × Transaction)) (txid : Bytes) : Transaction :=
  (findEntry m (hexEncode txid)).getD default

def Transaction.Hash (ser : Transaction → Bytes) (tx : Transaction) : Bytes :=
  sha256 (ser { tx with ID := [] })

def Transaction.TrimmedCopy (tx : Transaction) : Transaction :=
  { ID := tx.ID,
    Vin := tx.Vin.map (fun vin => { Txid := vin.Txid, Vout := vin.Vout, Signature := [], PubKey := [] }),
    Vout := tx.Vout.map (fun vout => { Value := vout.Value, PubKeyHash := vout.PubKeyHash }) }

/-- The per-input signing message: the trimmed copy with input `i`'s PubKey
temporarily set to the referenced output's PubKeyHash, hashed. Both Sign and
Verify rebuild exactly this (the source's transient mutation of `txCopy`:
Signature is already nil in the trimmed copy, PubKey is reset to nil after
hashing, and `Hash` zeroes the ID field it assigns). -/
def signPreimage (ser : Transaction → Bytes) (prevTXs : List (Bytes × Transaction))
    (tx : Transaction) (i : Nat) : Bytes :=
  let txCopy := tx.TrimmedCopy
  let vin := tx.Vin.getD i default
  let prevTx := lookupTx prevTXs vin.Txid
  let pkh := (prevTx.Vout.getD vin.Vout.toNat default).PubKeyHash
  Transaction.Hash ser
    { txCopy with Vin := txCopy.Vin.set i { txCopy.Vin.getD i default with PubKey := pkh } }

/-- Transaction.Sign. The `log.Panic` on a bad previous transaction is the
`error` branch; on success the returned transaction carries the new input
signatures. -/
def Transaction.Sign (ecdsaSign : Bytes → Bytes → Bytes) (ser : Transaction → Bytes)
    (tx : Transaction) (privKey : Bytes) (prevTXs : List (Bytes × Transaction)) :
    Except String Transaction :=
  if tx.IsCoinbase then .ok tx
  else if tx.Vin.any (fun vin => decide ((lookupTx prevTXs vin.Txid).ID = [])) then
    .error "previous transaction is not correct"
  else
    .ok { tx with
      Vin := (List.range tx.Vin.length).map (fun i =>
        { tx.Vin.getD i default with
            Signature := ecdsaSign privKey (signPreimage ser prevTXs tx i) }) }

/-- Transaction.Verify; `ok false` is the source's `return false` paths
(unmarshal failure or a failed ECDSA verification). -/
def Transaction.Verify (unmarshalPt : Bytes → Option Bytes)
    (verifyASN1 : Bytes → Bytes → Bytes → Bool) (ser : Transaction → Bytes)
    (tx : Transaction) (prevTXs : List (Bytes × Transaction)) : Except String Bool :=
  if tx.IsCoinbase then .ok true
  else if tx.Vin.any (fun vin => decide ((lookupTx prevTXs vin.Txid).ID = [])) then
    .error "previous transaction is not correct"
  else
    .ok ((List.range tx.Vin.length).all (fun i =>
      let vin := tx.Vin.getD i default
      match unmarshalPt vin.PubKey with
      | none => false
      | some pt => verifyASN1 pt (signPreimage ser prevTXs tx i) vin.Signature))

/-! ### Sign/Verify lemmas -/

theorem map_range_getD {α β : Type} (d : α) (g : α → β) :
    ∀ l : List α, (List.range l.length).map (fun i => g (l.getD i d)) = l.map g := by
  intro l
  induction l with
  | nil => rfl
  | cons a t ih =>
      rw [List.length_cons, List.range_succ_eq_map, List.map_cons, List.map_cons, List.map_map]
      have hc : ((fun i => g ((a :: t).getD i d)) ∘ Nat.succ) = fun i => g (t.getD i d) := by
        funext i
        simp [List.getD]
      rw [hc, ih]
      simp [List.getD]

theorem headD_eq_getD {α : Type} (l : List α) (d : α) : l.headD d = l.getD 0 d := by
  cases l <;> rfl

theorem getD_map_range {β : Type} (f : Nat → β) (d : β) :
    ∀ (n i : Nat), i < n → ((List.range n).map f).getD i d = f i := by
  intro n
  induction n generalizing f with
  | zero => intro i hi; omega
  | succ n ih =>
      intro i hi
      rw [List.range_succ_eq_map, List.map_cons, List.map_map]
      cases i with
      | zero => rfl
      | succ i =>
          have := ih (f := fun j => f (j + 1)) i (by omega)
          simpa [Function.comp, Nat.succ_eq_add_one] using this

/-- The Vin list written by a successful Sign, abstract in the signature bytes. -/
def signedVin (tx : Transaction) (s : Nat → Bytes) : List TxInput :=
  (List.range tx.Vin.length).map (fun i => { tx.Vin.getD i default with Signature := s i })

theorem signedVin_map_Txid (tx : Transaction) (s : Nat → Bytes) :
    (signedVin tx s).map (fun v => v.Txid) = tx.Vin.map (fun v => v.Txid) := by
  unfold signedVin
  rw [List.map_map]
  exact map_range_getD default (fun v => v.Txid) tx.Vin

theorem signedVin_map_Vout (tx : Transaction) (s : Nat → Bytes) :
    (signedVin tx s).map (fun v => v.Vout) = tx.Vin.map (fun v => v.Vout) := by
  unfold signedVin
  rw [List.map_map]
  exact map_range_getD default (fun v => v.Vout) tx.Vin

theorem signedVin_map_PubKey (tx : Transaction) (s : Nat → Bytes) :
    (signedVin tx s).map (fun v => v.PubKey) = tx.Vin.map (fun v => v.PubKey) := by
  unfold signedVin
  rw [List.map_map]
  exact map_range_getD default (fun v => v.PubKey) tx.Vin

theorem signedVin_length (tx : Transaction) (s : Nat → Bytes) :
    (signedVin tx s).length = tx.Vin.length := by
  simp [signedVin]

theorem signedVin_getD (tx : Transaction) (s : Nat → Bytes) (i : Nat) (hi : i < tx.Vin.length) :
    (signedVin tx s).getD i default = { tx.Vin.getD i default with Signature := s i } :=
  getD_map_range _ _ _ _ hi

theorem sign_eq_ok (ecdsaSign : Bytes → Bytes → Bytes) (ser : Transaction → Bytes)
    (tx : Transaction) (privKey : Bytes) (prevTXs : List (Bytes × Transaction))
    (hcb : tx.IsCoinbase = false)
    (hprev : ∀ vin ∈ tx.Vin, (lookupTx prevTXs vin.Txid).ID ≠ []) :
    Transaction.Sign ecdsaSign ser tx privKey prevTXs =
      .ok { tx with
        Vin := signedVin tx (fun i => ecdsaSign privKey (signPreimage ser prevTXs tx i)) } := by
  have hany : tx.Vin.any (fun vin => decide ((lookupTx prevTXs vin.Txid).ID = [])) = false := by
    rw [List.any_eq_false]
    intro vin hvin
    simpa using hprev vin hvin
  have h1 : ¬ (tx.IsCoinbase = true) := by simp [hcb]
  have h2 : ¬ (tx.Vin.any (fun vin => decide ((lookupTx prevTXs vin.Txid).ID = [])) = true) := by
    simp [hany]
  unfold Transaction.Sign
  rw [if_neg h1, if_neg h2]
  rfl

theorem trimmed_signed (tx : Transaction) (s : Nat → Bytes) :
    Transaction.TrimmedCopy { tx with Vin := signedVin tx s } = tx.TrimmedCopy := by
  unfold Transaction.TrimmedCopy signedVin
  simp only [List.map_map]
  congr 1
  exact map_range_getD default
    (fun vin => ({ Txid := vin.Txid, Vout := vin.Vout, Signature := [], PubKey := [] } : TxInput))
    tx.Vin

theorem isCoinbase_signed (tx : Transaction) (s : Nat → Bytes) :
    Transaction.IsCoinbase { tx with Vin := signedVin tx s } = tx.IsCoinbase := by
  cases hv : tx.Vin with
  | nil =>
      simp [Transaction.IsCoinbase, signedVin, hv]
  | cons v0 rest =>
      have hd : (signedVin tx s).headD default = { v0 with Signature := s 0 } := by
        have h0 : (signedVin tx s).getD 0 default = { tx.Vin.getD 0 default with Signature := s 0 } :=
          signedVin_getD tx s 0 (by rw [hv]; simp)
        rw [hv] at h0
        rw [headD_eq_getD, h0]
        rfl
      have hl : (signedVin tx s).length = tx.Vin.length := signedVin_length tx s
      simp only [Transaction.IsCoinbase, hd, hl, hv]
      simp

theorem signPreimage_signed (ser : Transaction → Bytes) (prevTXs : List (Bytes × Transaction))
    (tx : Transaction) (s : Nat → Bytes) (i : Nat) (hi : i < tx.Vin.length) :
    signPreimage ser prevTXs { tx with Vin := signedVin tx s } i =
      signPreimage ser prevTXs tx i := by
  unfold signPreimage
  rw [trimmed_signed]
  rw [show ({ tx with Vin := signedVin tx s } : Transaction).Vin = signedVin tx s from rfl,
    signedVin_getD tx s i hi]

/-- C5 auxiliary: a successful Sign writes `ecdsaSign privKey (signPreimage i)`
into input `i`'s Signature and changes nothing else. -/
theorem sign_ok_form (ecdsaSign : Bytes → Bytes → Bytes) (ser : Transaction → Bytes)
    (tx tx' : Transaction) (privKey : Bytes) (prevTXs : List (Bytes × Transaction))
    (hsign : Transaction.Sign ecdsaSign ser tx privKey prevTXs = .ok tx') :
    tx' = tx ∨
      (tx.IsCoinbase = false ∧
        tx' = { tx with
          Vin := signedVin tx (fun i => ecdsaSign privKey (signPreimage ser prevTXs tx i)) }) := by
  by_cases hcb : tx.IsCoinbase
  · left
    simp [Transaction.Sign, hcb] at hsign
    exact hsign.symm
  · right
    have hcbf : tx.IsCoinbase = false := by simpa using hcb
    refine ⟨hcbf, ?_⟩
    by_cases hany : tx.Vin.any (fun vin => decide ((lookupTx prevTXs vin.Txid).ID = [])) = true
    · simp [Transaction.Sign, hcb, hany] at hsign
    · have hanyf :
          tx.Vin.any (fun vin => decide ((lookupTx prevTXs vin.Txid).ID = [])) = false := by
        cases h : tx.Vin.any (fun vin => decide ((lookupTx prevTXs vin.Txid).ID = [])) with
        | false => rfl
        | true => exact absurd h hany
      have hprev : ∀ vin ∈ tx.Vin, (lookupTx prevTXs vin.Txid).ID ≠ [] := by
        intro vin hvin
        have := List.any_eq_false.mp hanyf vin hvin
        simpa using this
      rw [sign_eq_ok ecdsaSign ser tx privKey prevTXs hcbf hprev] at hsign
      exact (Except.ok.inj hsign).symm

theorem getD_mem {α : Type} (l : List α) (d : α) (i : Nat) (hi : i < l.length) :
    l.getD i d ∈ l := by
  induction l generalizing i with
  | nil => exact absurd hi (by simp)
  | cons a t ih =>
      cases i with
      | zero => simp [List.getD]
      | succ i =>
          have : t.getD i d ∈ t := ih i (by simpa using hi)
          simp only [List.getD] at this ⊢
          exact List.mem_cons_of_mem _ (by simpa using this)

/-- C5: verify(sign(tx, k, prevTxs), prevTxs) = ok true when prevTxs is
well-formed, the inputs carry k's marshalled public key, and the abstract
ECDSA scheme is correct. -/
theorem verify_after_sign
    (ecdsaSign : Bytes → Bytes → Bytes) (unmarshalPt : Bytes → Option Bytes)
    (verifyASN1 : Bytes → Bytes → Bytes → Bool) (ser : Transaction → Bytes)
    (privKey ptKey pubKeyBytes : Bytes)
    (tx tx' : Transaction) (prevTXs : List (Bytes × Transaction))
    (hpub : ∀ vin ∈ tx.Vin, vin.PubKey = pubKeyBytes)
    (hun : unmarshalPt pubKeyBytes = some ptKey)
    (hcor : ∀ m, verifyASN1 ptKey m (ecdsaSign privKey m) = true)
    (hprev : ∀ vin ∈ tx.Vin, (lookupTx prevTXs vin.Txid).ID ≠ [])
    (hrange : ∀ vin ∈ tx.Vin,
      0 ≤ vin.Vout ∧ vin.Vout.toNat < (lookupTx prevTXs vin.Txid).Vout.length)
    (hsign : Transaction.Sign ecdsaSign ser tx privKey prevTXs = .ok tx') :
    Transaction.Verify unmarshalPt verifyASN1 ser tx' prevTXs = .ok true := by
  by_cases hcb : tx.IsCoinbase
  · have htx : tx' = tx := by
      simp [Transaction.Sign, hcb] at hsign
      exact hsign.symm
    subst htx
    simp [Transaction.Verify, hcb]
  · have hcbf : tx.IsCoinbase = false := by simpa using hcb
    rw [sign_eq_ok ecdsaSign ser tx privKey prevTXs hcbf hprev] at hsign
    have htx : tx' =
        { tx with
          Vin := signedVin tx (fun i => ecdsaSign privKey (signPreimage ser prevTXs tx i)) } :=
      (Except.ok.inj hsign).symm
    subst htx
    have hcb2 : Transaction.IsCoinbase
        { tx with
          Vin := signedVin tx (fun i => ecdsaSign privKey (signPreimage ser prevTXs tx i)) } =
        false := by
      rw [isCoinbase_signed]
      exact hcbf
    have hany2 : (signedVin tx (fun i => ecdsaSign privKey (signPreimage ser prevTXs tx i))).any
        (fun vin => decide ((lookupTx prevTXs vin.Txid).ID = [])) = false := by
      rw [List.any_eq_false]
      intro vin hvin
      simp only [signedVin, List.mem_map, List.mem_range] at hvin
      obtain ⟨i, hi, rfl⟩ := hvin
      simpa using hprev _ (getD_mem tx.Vin default i hi)
    unfold Transaction.Verify
    rw [if_neg (by simp [hcb2]), if_neg (by simp [hany2])]
    refine congrArg Except.ok ?_
    rw [List.all_eq_true]
    intro i hi
    have hilt : i < tx.Vin.length := by
      have := List.mem_range.mp hi
      simpa [signedVin_length] using this
    have hgetD := signedVin_getD tx
      (fun j => ecdsaSign privKey (signPreimage ser prevTXs tx j)) i hilt
    have hpk : (tx.Vin.getD i default).PubKey = pubKeyBytes :=
      hpub _ (getD_mem tx.Vin default i hilt)
    have hpre := signPreimage_signed ser prevTXs tx
      (fun j => ecdsaSign privKey (signPreimage ser prevTXs tx j)) i hilt
    simp only [hgetD, hpre, hpk, hun, hcor]

/-- C7: a successful Sign changes only the Signature field of each input:
the transaction id, every input's Txid, Vout and PubKey, and all outputs are
unchanged, so the id stays the pre-signing hash of the unsigned shape. -/
theorem sign_writes_only_signatures
    (ecdsaSign : Bytes → Bytes → Bytes) (ser : Transaction → Bytes)
    (tx tx' : Transaction) (privKey : Bytes) (prevTXs : List (Bytes × Transaction))
    (hsign : Transaction.Sign ecdsaSign ser tx privKey prevTXs = .ok tx') :
    tx'.ID = tx.ID ∧ tx'.Vout = tx.Vout ∧
      tx'.Vin.map (fun v => v.Txid) = tx.Vin.map (fun v => v.Txid) ∧
      tx'.Vin.map (fun v => v.Vout) = tx.Vin.map (fun v => v.Vout) ∧
      tx'.Vin.map (fun v => v.PubKey) = tx.Vin.map (fun v => v.PubKey) := by
  rcases sign_ok_form ecdsaSign ser tx tx' privKey prevTXs hsign with h | ⟨hcb, h⟩
  · subst h
    exact ⟨rfl, rfl, rfl, rfl, rfl⟩
  · subst h
    exact ⟨rfl, rfl, signedVin_map_Txid tx _, signedVin_map_Vout tx _,
      signedVin_map_PubKey tx _⟩

/-- C10: a non-coinbase transaction with an input whose previous transaction
is absent from prevTXs (zero-value lookup, nil ID) makes both Sign and Verify
fail with the panic message before processing any input; Verify in
particular never returns ok false for this condition, and the transaction is
not modified. -/
theorem sign_verify_missing_prev
    (ecdsaSign : Bytes → Bytes → Bytes) (unmarshalPt : Bytes → Option Bytes)
    (verifyASN1 : Bytes → Bytes → Bytes → Bool) (ser : Transaction → Bytes)
    (privKey : Bytes) (tx : Transaction) (prevTXs : List (Bytes × Transaction))
    (hcb : tx.IsCoinbase = false)
    (hmiss : ∃ vin ∈ tx.Vin, (lookupTx prevTXs vin.Txid).ID = []) :
    Transaction.Sign ecdsaSign ser tx privKey prevTXs =
        .error "previous transaction is not correct" ∧
      Transaction.Verify unmarshalPt verifyASN1 ser tx prevTXs =
        .error "previous transaction is not correct" := by
  have hany : tx.Vin.any (fun vin => decide ((lookupTx prevTXs vin.Txid).ID = [])) = true := by
    rcases hmiss with ⟨vin, hvin, h⟩
    exact List.any_eq_true.mpr ⟨vin, hvin, by simpa using h⟩
  constructor
  · unfold Transaction.Sign
    rw [if_neg (by simp [hcb]), if_pos hany]
  · unfold Transaction.Verify
    rw [if_neg (by simp [hcb]), if_pos hany]

/-! ## Claim theorems: C2, C3, C8 -/

/-- C8: Base58Decode(Base58Encode(x)) = x for every byte string, leading
zero bytes included (entries of a Go byte slice are below 256). -/
theorem C8_base58_roundtrip (x : Bytes) (hx : ∀ b ∈ x, b < 256) :
    Base58Decode (Base58Encode x) = some x :=
  Base58_roundtrip x hx

/-- C8 witness: the round trip at a concrete byte string with leading zeros. -/
theorem C8_base58_roundtrip_witness :
    Base58Decode (Base58Encode [0, 0, 7, 255]) = some [0, 0, 7, 255] :=
  C8_base58_roundtrip [0, 0, 7, 255] (by decide)

/-- C2 counterexample: an address whose decoded payload has only 5 bytes
(1 version-style byte + 4 checksum bytes) passes ValidateAddress, so
validation does not require the 25-byte (1+20+4) layout the claim states;
the source only checks `len(decoded) >= 1+addressChecksumLen`. -/
theorem C2_validateAddress_counterexample :
    ValidateAddress (Base58Encode (0 :: checksum [0])) = true ∧
      ((Base58Decode (Base58Encode (0 :: checksum [0]))).getD []).length < 25 := by
  constructor
  · decide
  · decide

/-- C2 amended: ValidateAddress s = true only if Base58Decode succeeds, the
decoded payload has length at least 5 (1 version byte + 4 checksum bytes),
and the last 4 decoded bytes equal the first 4 bytes of
SHA-256(SHA-256(preceding bytes)). -/
theorem C2_validateAddress_only_if (s : Bytes) (h : ValidateAddress s = true) :
    ∃ d, Base58Decode s = some d ∧ 5 ≤ d.length ∧
      d.drop (d.length - 4) = checksum (d.take (d.length - 4)) := by
  unfold ValidateAddress at h
  cases hd : Base58Decode s with
  | none =>
      rw [hd] at h
      exact absurd h (by simp)
  | some d =>
      rw [hd] at h
      have h2 : (if d.length < 1 + 4 then false
          else decide (d.drop (d.length - 4) = checksum (d.take (d.length - 4)))) = true := h
      by_cases hl : d.length < 1 + 4
      · rw [if_pos hl] at h2
        cases h2
      · rw [if_neg hl] at h2
        exact ⟨d, rfl, by omega, of_decide_eq_true h2⟩

/-- C2 witness: the amended property at the 5-byte-payload address. -/
theorem C2_validateAddress_only_if_witness :
    ∃ d, Base58Decode (Base58Encode (0 :: checksum [0])) = some d ∧ 5 ≤ d.length ∧
      d.drop (d.length - 4) = checksum (d.take (d.length - 4)) :=
  C2_validateAddress_only_if (Base58Encode (0 :: checksum [0])) (by decide)

/-- C3 counterexample: the root of the empty Merkle tree is not SHA-256 of
the empty byte string — NewMerkleTree passes sha256("") as leaf data to
NewMerkleNode, which hashes it again. -/
theorem C3_merkle_empty_counterexample : (NewMerkleTree []).data ≠ sha256 [] := by decide

/-- C3 amended: the empty-input Merkle tree root Data equals
SHA-256(SHA-256(empty byte string)). -/
theorem C3_merkle_empty : (NewMerkleTree []).data = sha256 (sha256 []) := by decide

/-! ## Claim theorems: C5, C7, C10 -/

/-- C5 (claim statement over the embedding): see verify_after_sign. -/
theorem C5_verify_sign
    (ecdsaSign : Bytes → Bytes → Bytes) (unmarshalPt : Bytes → Option Bytes)
    (verifyASN1 : Bytes → Bytes → Bytes → Bool) (ser : Transaction → Bytes)
    (privKey ptKey pubKeyBytes : Bytes)
    (tx tx' : Transaction) (prevTXs : List (Bytes × Transaction))
    (hpub : ∀ vin ∈ tx.Vin, vin.PubKey = pubKeyBytes)
    (hun : unmarshalPt pubKeyBytes = some ptKey)
    (hcor : ∀ m, verifyASN1 ptKey m (ecdsaSign privKey m) = true)
    (hprev : ∀ vin ∈ tx.Vin, (lookupTx prevTXs vin.Txid).ID ≠ [])
    (hrange : ∀ vin ∈ tx.Vin,
      0 ≤ vin.Vout ∧ vin.Vout.toNat < (lookupTx prevTXs vin.Txid).Vout.length)
    (hsign : Transaction.Sign ecdsaSign ser tx privKey prevTXs = .ok tx') :
    Transaction.Verify unmarshalPt verifyASN1 ser tx' prevTXs = .ok true :=
  verify_after_sign ecdsaSign unmarshalPt verifyASN1 ser privKey ptKey pubKeyBytes tx tx'
    prevTXs hpub hun hcor hprev hrange hsign

/-- C5 witness: a concrete one-input transaction under a toy correct scheme. -/
theorem C5_verify_sign_witness :
    Transaction.Verify (fun _ => some [7]) (fun pt m s => decide (s = pt ++ m)) (fun _ => [])
      { ID := [1],
        Vin := [{ Txid := [2], Vout := 0, Signature := 7 :: sha256 [], PubKey := [9] }],
        Vout := [{ Value := 5, PubKeyHash := [3] }] }
      [(hexEncode [2], { ID := [2], Vin := [], Vout := [{ Value := 5, PubKeyHash := [4] }] })] =
      .ok true :=
  C5_verify_sign (fun k m => k ++ m) (fun _ => some [7]) (fun pt m s => decide (s = pt ++ m))
    (fun _ => []) [7] [7] [9]
    { ID := [1], Vin := [{ Txid := [2], Vout := 0, Signature := [], PubKey := [9] }],
      Vout := [{ Value := 5, PubKeyHash := [3] }] }
    { ID := [1],
      Vin := [{ Txid := [2], Vout := 0, Signature := 7 :: sha256 [], PubKey := [9] }],
      Vout := [{ Value := 5, PubKeyHash := [3] }] }
    [(hexEncode [2], { ID := [2], Vin := [], Vout := [{ Value := 5, PubKeyHash := [4] }] })]
    (by decide) rfl (fun m => by simp) (by decide) (by decide) (by decide)

/-- C7 (claim statement over the embedding): see sign_writes_only_signatures. -/
theorem C7_sign_frame
    (ecdsaSign : Bytes → Bytes → Bytes) (ser : Transaction → Bytes)
    (tx tx' : Transaction) (privKey : Bytes) (prevTXs : List (Bytes × Transaction))
    (hsign : Transaction.Sign ecdsaSign ser tx privKey prevTXs = .ok tx') :
    tx'.ID = tx.ID ∧ tx'.Vout = tx.Vout ∧
      tx'.Vin.map (fun v => v.Txid) = tx.Vin.map (fun v => v.Txid) ∧
      tx'.Vin.map (fun v => v.Vout) = tx.Vin.map (fun v => v.Vout) ∧
      tx'.Vin.map (fun v => v.PubKey) = tx.Vin.map (fun v => v.PubKey) :=
  sign_writes_only_signatures ecdsaSign ser tx tx' privKey prevTXs hsign

/-- C7 witness: the frame property at a concrete non-coinbase transaction. -/
theorem C7_sign_frame_witness :
    ({ ID := [6],
       Vin := [{ Txid := [2], Vout := 0, Signature := 8 :: sha256 [], PubKey := [9] }],
       Vout := [{ Value := 4, PubKeyHash := [3] }] } : Transaction).ID =
        ({ ID := [6], Vin := [{ Txid := [2], Vout := 0, Signature := [], PubKey := [9] }],
           Vout := [{ Value := 4, PubKeyHash := [3] }] } : Transaction).ID ∧
      ({ ID := [6],
         Vin := [{ Txid := [2], Vout := 0, Signature := 8 :: sha256 [], PubKey := [9] }],
         Vout := [{ Value := 4, PubKeyHash := [3] }] } : Transaction).Vout =
        ({ ID := [6], Vin := [{ Txid := [2], Vout := 0, Signature := [], PubKey := [9] }],
           Vout := [{ Value := 4, PubKeyHash := [3] }] } : Transaction).Vout ∧
      ({ ID := [6],
         Vin := [{ Txid := [2], Vout := 0, Signature := 8 :: sha256 [], PubKey := [9] }],
         Vout := [{ Value := 4, PubKeyHash := [3] }] } : Transaction).Vin.map (fun v => v.Txid) =
        ({ ID := [6], Vin := [{ Txid := [2], Vout := 0, Signature := [], PubKey := [9] }],
           Vout := [{ Value := 4, PubKeyHash := [3] }] } : Transaction).Vin.map (fun v => v.Txid) ∧
      ({ ID := [6],
         Vin := [{ Txid := [2], Vout := 0, Signature := 8 :: sha256 [], PubKey := [9] }],
         Vout := [{ Value := 4, PubKeyHash := [3] }] } : Transaction).Vin.map (fun v => v.Vout) =
        ({ ID := [6], Vin := [{ Txid := [2], Vout := 0, Signature := [], PubKey := [9] }],
           Vout := [{ Value := 4, PubKeyHash := [3] }] } : Transaction).Vin.map (fun v => v.Vout) ∧
      ({ ID := [6],
         Vin := [{ Txid := [2], Vout := 0, Signature := 8 :: sha256 [], PubKey := [9] }],
         Vout := [{ Value := 4, PubKeyHash := [3] }] } : Transaction).Vin.map (fun v => v.PubKey) =
        ({ ID := [6], Vin := [{ Txid := [2], Vout := 0, Signature := [], PubKey := [9] }],
           Vout := [{ Value := 4, PubKeyHash := [3] }] } : Transaction).Vin.map
          (fun v => v.PubKey) :=
  C7_sign_frame (fun k m => k ++ m) (fun _ => [])
    { ID := [6], Vin := [{ Txid := [2], Vout := 0, Signature := [], PubKey := [9] }],
      Vout := [{ Value := 4, PubKeyHash := [3] }] }
    { ID := [6],
      Vin := [{ Txid := [2], Vout := 0, Signature := 8 :: sha256 [], PubKey := [9] }],
      Vout := [{ Value := 4, PubKeyHash := [3] }] }
    [8]
    [(hexEncode [2], { ID := [2], Vin := [], Vout := [{ Value := 4, PubKeyHash := [4] }] })]
    (by decide)

/-- C10 (claim statement over the embedding): see sign_verify_missing_prev. -/
theorem C10_missing_prev
    (ecdsaSign : Bytes → Bytes → Bytes) (unmarshalPt : Bytes → Option Bytes)
    (verifyASN1 : Bytes → Bytes → Bytes → Bool) (ser : Transaction → Bytes)
    (privKey : Bytes) (tx : Transaction) (prevTXs : List (Bytes × Transaction))
    (hcb : tx.IsCoinbase = false)
    (hmiss : ∃ vin ∈ tx.Vin, (lookupTx prevTXs vin.Txid).ID = []) :
    Transaction.Sign ecdsaSign ser tx privKey prevTXs =
        .error "previous transaction is not correct" ∧
      Transaction.Verify unmarshalPt verifyASN1 ser tx prevTXs =
        .error "previous transaction is not correct" :=
  sign_verify_missing_prev ecdsaSign unmarshalPt verifyASN1 ser privKey tx prevTXs hcb hmiss

/-- C10 witness: a transaction referencing a transaction absent from the map. -/
theorem C10_missing_prev_witness :
    Transaction.Sign (fun k m => k ++ m) (fun _ => [])
        { ID := [1], Vin := [{ Txid := [5], Vout := 0, Signature := [], PubKey := [] }],
          Vout := [] } [7] [] =
        .error "previous transaction is not correct" ∧
      Transaction.Verify (fun _ => some []) (fun _ _ _ => true) (fun _ => [])
        { ID := [1], Vin := [{ Txid := [5], Vout := 0, Signature := [], PubKey := [] }],
          Vout := [] } [] =
        .error "previous transaction is not correct" :=
  C10_missing_prev (fun k m => k ++ m) (fun _ => some []) (fun _ _ _ => true) (fun _ => [])
    [7]
    { ID := [1], Vin := [{ Txid := [5], Vout := 0, Signature := [], PubKey := [] }], Vout := [] }
    [] (by decide) (by decide)

/-! ## Chain store (src/unnamed/part_002 and src/core/blockchain.go)

The bbolt bucket is an association list from keys to values (both byte
strings); `bget`/`bput` are Get/Put (Get is nil — `none` — on a missing key).
Blocks are gob-serialized before storage, so deserialization is an abstract
parameter `deserialize` and block mining (NewBlock / NewGenesisBlock, which
involve time and proof-of-work) is abstracted by passing the mined block. -/

structure Block where
  Timestamp : Int
  Transactions : List Transaction
  PrevBlockHash : Bytes
  Hash : Bytes
  Nonce : Int
  MerkleRoot : Bytes
deriving DecidableEq

abbrev Bucket := List (Bytes × Bytes)

def bget : Bucket → Bytes → Option Bytes
  | [], _ => none
  | (k, v) :: rest, key => if k = key then some v else bget rest key

def bput : Bucket → Bytes → Bytes → Bucket
  | [], k, v => [(k, v)]
  | (k0, v0) :: rest, k, v => if k0 = k then (k, v) :: rest else (k0, v0) :: bput rest k v

/-- const lastHashKey = "l" -/
def lastHashKey : Bytes := [108]

/-- The Blockchain handle: the bucket (created lazily by some operations) and
the in-memory `tip` field. -/
structure Store where
  bucket : Option Bucket
  tipMem : Bytes
deriving DecidableEq

/-- `if existing := b.Get(hash); existing == nil { b.Put(hash, data) }`. -/
def insertIfAbsent (b : Bucket) (k v : Bytes) : Bucket :=
  if (bget b k).isNone then bput b k v else b

/-- PutBlock: store the block under its hash if absent, then adopt its hash
as tip if the stored tip entry is missing or empty, else advance the tip only
if the block extends it. -/
def PutBlock (deserialize : Bytes → Block) (st : Store) (blockData : Bytes) : Store :=
  let block := deserialize blockData
  let b1 := insertIfAbsent (st.bucket.getD []) block.Hash blockData
  let currentTip := bget b1 lastHashKey
  if currentTip = none ∨ currentTip = some [] then
    { bucket := some (bput b1 lastHashKey block.Hash), tipMem := block.Hash }
  else if some block.PrevBlockHash = currentTip then
    { bucket := some (bput b1 lastHashKey block.Hash), tipMem := block.Hash }
  else
    { bucket := some b1, tipMem := st.tipMem }

/-- CreateBlockchainForNode: fresh bucket, store the mined genesis block,
set the tip entry and the in-memory tip to its hash. -/
def CreateBlockchainForNode (serializeB : Block → Bytes) (genesis : Block) : Store :=
  { bucket := some (bput (bput [] genesis.Hash (serializeB genesis)) lastHashKey genesis.Hash),
    tipMem := genesis.Hash }

/-- InitBlockchainForNode: open or create the bucket, read the tip entry into
the in-memory tip (nil when absent). -/
def InitBlockchainForNode (b0 : Option Bucket) : Store :=
  { bucket := some (b0.getD []),
    tipMem := (bget (b0.getD []) lastHashKey).getD [] }

/-- AddBlock: store the freshly mined block and advance both tips to it. -/
def AddBlock (serializeB : Block → Bytes) (st : Store) (newBlock : Block) : Store :=
  { bucket := some (bput (bput (st.bucket.getD []) newBlock.Hash (serializeB newBlock))
      lastHashKey newBlock.Hash),
    tipMem := newBlock.Hash }

/-- The value stored under lastHashKey, as a possibly-empty byte string. -/
def storedTip (st : Store) : Bytes := (bget (st.bucket.getD []) lastHashKey).getD []

/-- The C9 invariant: the in-memory tip equals the stored tip entry. -/
def TipInv (st : Store) : Prop := st.tipMem = storedTip st

instance (st : Store) : Decidable (TipInv st) := by
  unfold TipInv
  infer_instance

/-! ### Bucket lemmas -/

theorem bget_bput_same (b : Bucket) (k v : Bytes) : bget (bput b k v) k = some v := by
  induction b with
  | nil => simp [bput, bget]
  | cons p rest ih =>
      by_cases h : p.1 = k
      · simp [bput, h, bget]
      · simp [bput, h, bget, ih]

theorem bget_bput_ne (b : Bucket) (k v key : Bytes) (h : k ≠ key) :
    bget (bput b k v) key = bget b key := by
  induction b with
  | nil => simp [bput, bget, h]
  | cons p rest ih =>
      by_cases h0 : p.1 = k
      · simp [bput, h0, bget, h]
      · simp [bput, h0, bget, ih]

theorem bput_bput_same (b : Bucket) (k v w : Bytes) : bput (bput b k v) k w = bput b k w := by
  induction b with
  | nil => simp [bput]
  | cons p rest ih =>
      by_cases h : p.1 = k
      · simp [bput, h]
      · simp [bput, h, ih]

theorem bput_self (b : Bucket) (k v : Bytes) (h : bget b k = some v) : bput b k v = b := by
  induction b with
  | nil => simp [bget] at h
  | cons p rest ih =>
      obtain ⟨pk, pv⟩ := p
      by_cases h0 : pk = k
      · subst h0
        simp [bget] at h
        simp [bput, h]
      · simp [bget, h0] at h
        simp [bput, h0, ih h]

theorem bget_insertIfAbsent_ne (b : Bucket) (k v key : Bytes) (h : k ≠ key) :
    bget (insertIfAbsent b k v) key = bget b key := by
  unfold insertIfAbsent
  by_cases h0 : (bget b k).isNone
  · rw [if_pos h0, bget_bput_ne _ _ _ _ h]
  · rw [if_neg h0]

theorem bget_insertIfAbsent_self (b : Bucket) (k v : Bytes) :
    bget (insertIfAbsent b k v) k ≠ none := by
  unfold insertIfAbsent
  by_cases h0 : (bget b k).isNone
  · rw [if_pos h0, bget_bput_same]
    simp
  · rw [if_neg h0]
    cases h : bget b k with
    | none => rw [h] at h0; simp at h0
    | some v0 => simp

/-! ### PutBlock branch lemmas -/

theorem putBlock_branch_empty (deserialize : Bytes → Block) (st : Store) (blockData : Bytes)
    (h : bget (insertIfAbsent (st.bucket.getD []) (deserialize blockData).Hash blockData)
          lastHashKey = none ∨
        bget (insertIfAbsent (st.bucket.getD []) (deserialize blockData).Hash blockData)
          lastHashKey = some []) :
    PutBlock deserialize st blockData =
      { bucket := some (bput
          (insertIfAbsent (st.bucket.getD []) (deserialize blockData).Hash blockData)
          lastHashKey (deserialize blockData).Hash),
        tipMem := (deserialize blockData).Hash } := by
  simp only [PutBlock]
  rw [if_pos h]

theorem putBlock_branch_extend (deserialize : Bytes → Block) (st : Store) (blockData : Bytes)
    (hne : ¬ (bget (insertIfAbsent (st.bucket.getD []) (deserialize blockData).Hash blockData)
          lastHashKey = none ∨
        bget (insertIfAbsent (st.bucket.getD []) (deserialize blockData).Hash blockData)
          lastHashKey = some []))
    (hp : some (deserialize blockData).PrevBlockHash =
        bget (insertIfAbsent (st.bucket.getD []) (deserialize blockData).Hash blockData)
          lastHashKey) :
    PutBlock deserialize st blockData =
      { bucket := some (bput
          (insertIfAbsent (st.bucket.getD []) (deserialize blockData).Hash blockData)
          lastHashKey (deserialize blockData).Hash),
        tipMem := (deserialize blockData).Hash } := by
  simp only [PutBlock]
  rw [if_neg hne, if_pos hp]

theorem putBlock_branch_keep (deserialize : Bytes → Block) (st : Store) (blockData : Bytes)
    (hne : ¬ (bget (insertIfAbsent (st.bucket.getD []) (deserialize blockData).Hash blockData)
          lastHashKey = none ∨
        bget (insertIfAbsent (st.bucket.getD []) (deserialize blockData).Hash blockData)
          lastHashKey = some []))
    (hp : ¬ some (deserialize blockData).PrevBlockHash =
        bget (insertIfAbsent (st.bucket.getD []) (deserialize blockData).Hash blockData)
          lastHashKey) :
    PutBlock deserialize st blockData =
      { bucket := some (insertIfAbsent (st.bucket.getD []) (deserialize blockData).Hash blockData),
        tipMem := st.tipMem } := by
  simp only [PutBlock]
  rw [if_neg hne, if_neg hp]

/-- Re-running PutBlock on a state whose bucket already holds the block and
whose tip entry and in-memory tip are the block's hash is a no-op. -/
theorem putBlock_again (deserialize : Bytes → Block) (blockData : Bytes) (b1 : Bucket)
    (hkey : (deserialize blockData).Hash ≠ lastHashKey)
    (hb1h : bget b1 (deserialize blockData).Hash ≠ none) :
    PutBlock deserialize
        { bucket := some (bput b1 lastHashKey (deserialize blockData).Hash),
          tipMem := (deserialize blockData).Hash } blockData =
      { bucket := some (bput b1 lastHashKey (deserialize blockData).Hash),
        tipMem := (deserialize blockData).Hash } := by
  have hgot : bget (bput b1 lastHashKey (deserialize blockData).Hash)
      (deserialize blockData).Hash = bget b1 (deserialize blockData).Hash :=
    bget_bput_ne b1 lastHashKey _ _ (fun hc => hkey hc.symm)
  have hins : insertIfAbsent (bput b1 lastHashKey (deserialize blockData).Hash)
      (deserialize blockData).Hash blockData =
      bput b1 lastHashKey (deserialize blockData).Hash := by
    unfold insertIfAbsent
    rw [if_neg]
    rw [hgot, Option.isNone_iff_eq_none]
    exact hb1h
  have hct : bget (bput b1 lastHashKey (deserialize blockData).Hash) lastHashKey =
      some (deserialize blockData).Hash := bget_bput_same b1 lastHashKey _
  by_cases hh : (deserialize blockData).Hash = []
  · rw [putBlock_branch_empty]
    · simp only [Option.getD_some, hins]
      rw [bput_bput_same]
    · simp only [Option.getD_some, hins]
      rw [hct, hh]
      exact Or.inr rfl
  · by_cases hp : (deserialize blockData).PrevBlockHash = (deserialize blockData).Hash
    · rw [putBlock_branch_extend]
      · simp only [Option.getD_some, hins]
        rw [bput_bput_same]
      · simp only [Option.getD_some, hins]
        rw [hct]
        intro hc
        rcases hc with hc | hc
        · cases hc
        · rw [Option.some.injEq] at hc
          exact hh hc
      · simp only [Option.getD_some, hins]
        rw [hct, hp]
    · rw [putBlock_branch_keep]
      · simp only [Option.getD_some, hins]
      · simp only [Option.getD_some, hins]
        rw [hct]
        intro hc
        rcases hc with hc | hc
        · cases hc
        · rw [Option.some.injEq] at hc
          exact hh hc
      · simp only [Option.getD_some, hins]
        rw [hct]
        intro hc
        rw [Option.some.injEq] at hc
        exact hp hc

theorem insertIfAbsent_idem (b : Bucket) (k v : Bytes) (h : bget b k ≠ none) :
    insertIfAbsent b k v = b := by
  unfold insertIfAbsent
  rw [if_neg]
  rw [Option.isNone_iff_eq_none]
  exact h

theorem bget_insertIfAbsent_absent (b : Bucket) (k v : Bytes) (h : bget b k = none) :
    bget (insertIfAbsent b k v) k = some v := by
  unfold insertIfAbsent
  rw [if_pos (by rw [Option.isNone_iff_eq_none]; exact h), bget_bput_same]

theorem bget_insertIfAbsent_present (b : Bucket) (k v w : Bytes) (h : bget b k = some w) :
    bget (insertIfAbsent b k v) k = some w := by
  unfold insertIfAbsent
  rw [if_neg (by rw [Option.isNone_iff_eq_none, h]; simp)]
  exact h

/-! ## Claim theorems: C4, C6, C9 -/

/-- C4: PutBlock inserts the block under its hash when absent (and keeps any
present entry), then adopts the hash as tip when the stored tip entry is
missing or empty, advances the tip when the block extends it, and otherwise
leaves the tip (stored and in-memory) unchanged while the block stays stored.
The hash is assumed distinct from the metadata key "l", which holds for every
block the program produces (hashes are 32-byte SHA-256 outputs). -/
theorem C4_putBlock_spec (deserialize : Bytes → Block) (st : Store) (blockData : Bytes)
    (hkey : (deserialize blockData).Hash ≠ lastHashKey) :
    (bget (st.bucket.getD []) (deserialize blockData).Hash = none →
        bget ((PutBlock deserialize st blockData).bucket.getD [])
          (deserialize blockData).Hash = some blockData) ∧
    (∀ v, bget (st.bucket.getD []) (deserialize blockData).Hash = some v →
        bget ((PutBlock deserialize st blockData).bucket.getD [])
          (deserialize blockData).Hash = some v) ∧
    ((bget (st.bucket.getD []) lastHashKey = none ∨
        bget (st.bucket.getD []) lastHashKey = some []) →
      (PutBlock deserialize st blockData).tipMem = (deserialize blockData).Hash ∧
        bget ((PutBlock deserialize st blockData).bucket.getD []) lastHashKey =
          some (deserialize blockData).Hash) ∧
    (∀ t, bget (st.bucket.getD []) lastHashKey = some t → t ≠ [] →
      ((deserialize blockData).PrevBlockHash = t →
          (PutBlock deserialize st blockData).tipMem = (deserialize blockData).Hash ∧
          bget ((PutBlock deserialize st blockData).bucket.getD []) lastHashKey =
            some (deserialize blockData).Hash) ∧
      ((deserialize blockData).PrevBlockHash ≠ t →
          (PutBlock deserialize st blockData).tipMem = st.tipMem ∧
          bget ((PutBlock deserialize st blockData).bucket.getD []) lastHashKey = some t)) := by
  have hb1l : bget (insertIfAbsent (st.bucket.getD []) (deserialize blockData).Hash blockData)
      lastHashKey = bget (st.bucket.getD []) lastHashKey :=
    bget_insertIfAbsent_ne _ _ _ _ hkey
  have hlh : lastHashKey ≠ (deserialize blockData).Hash := fun hc => hkey hc.symm
  by_cases hc1 : bget (insertIfAbsent (st.bucket.getD []) (deserialize blockData).Hash blockData)
      lastHashKey = none ∨
      bget (insertIfAbsent (st.bucket.getD []) (deserialize blockData).Hash blockData)
        lastHashKey = some []
  · rw [putBlock_branch_empty deserialize st blockData hc1]
    refine ⟨?_, ?_, ?_, ?_⟩
    · intro habs
      simp only [Option.getD_some]
      rw [bget_bput_ne _ _ _ _ hlh, bget_insertIfAbsent_absent _ _ _ habs]
    · intro v hv
      simp only [Option.getD_some]
      rw [bget_bput_ne _ _ _ _ hlh, bget_insertIfAbsent_present _ _ _ _ hv]
    · intro _
      refine ⟨rfl, ?_⟩
      simp only [Option.getD_some]
      exact bget_bput_same _ _ _
    · intro t ht htne
      rw [ht] at hb1l
      rcases hc1 with hc | hc
      · rw [hb1l] at hc
        cases hc
      · rw [hb1l] at hc
        rw [Option.some.injEq] at hc
        exact absurd hc htne
  · by_cases hp1 : some (deserialize blockData).PrevBlockHash =
        bget (insertIfAbsent (st.bucket.getD []) (deserialize blockData).Hash blockData)
          lastHashKey
    · rw [putBlock_branch_extend deserialize st blockData hc1 hp1]
      refine ⟨?_, ?_, ?_, ?_⟩
      · intro habs
        simp only [Option.getD_some]
        rw [bget_bput_ne _ _ _ _ hlh, bget_insertIfAbsent_absent _ _ _ habs]
      · intro v hv
        simp only [Option.getD_some]
        rw [bget_bput_ne _ _ _ _ hlh, bget_insertIfAbsent_present _ _ _ _ hv]
      · intro hempty
        exact absurd (by rw [hb1l]; exact hempty) hc1
      · intro t ht htne
        rw [hb1l, ht] at hp1
        rw [Option.some.injEq] at hp1
        constructor
        · intro _
          refine ⟨rfl, ?_⟩
          simp only [Option.getD_some]
          exact bget_bput_same _ _ _
        · intro hpne
          exact absurd hp1 hpne
    · rw [putBlock_branch_keep deserialize st blockData hc1 hp1]
      refine ⟨?_, ?_, ?_, ?_⟩
      · intro habs
        simp only [Option.getD_some]
        rw [bget_insertIfAbsent_absent _ _ _ habs]
      · intro v hv
        simp only [Option.getD_some]
        rw [bget_insertIfAbsent_present _ _ _ _ hv]
      · intro hempty
        exact absurd (by rw [hb1l]; exact hempty) hc1
      · intro t ht htne
        constructor
        · intro hpe
          exfalso
          apply hp1
          rw [hb1l, ht, hpe]
        · intro _
          refine ⟨rfl, ?_⟩
          simp only [Option.getD_some]
          rw [hb1l]
          exact ht

/-- C4 witness: an empty store adopting a first block as tip. -/
theorem C4_putBlock_spec_witness :
    (bget (({ bucket := none, tipMem := [] } : Store).bucket.getD []) [1] = none →
        bget ((PutBlock (fun _ =>
            { Timestamp := 0, Transactions := [], PrevBlockHash := [], Hash := [1], Nonce := 0,
              MerkleRoot := [] })
            { bucket := none, tipMem := [] } [9, 9]).bucket.getD []) [1] = some [9, 9]) ∧
    (∀ v, bget (({ bucket := none, tipMem := [] } : Store).bucket.getD []) [1] = some v →
        bget ((PutBlock (fun _ =>
            { Timestamp := 0, Transactions := [], PrevBlockHash := [], Hash := [1], Nonce := 0,
              MerkleRoot := [] })
            { bucket := none, tipMem := [] } [9, 9]).bucket.getD []) [1] = some v) ∧
    ((bget (({ bucket := none, tipMem := [] } : Store).bucket.getD []) lastHashKey = none ∨
        bget (({ bucket := none, tipMem := [] } : Store).bucket.getD []) lastHashKey = some []) →
      (PutBlock (fun _ =>
          { Timestamp := 0, Transactions := [], PrevBlockHash := [], Hash := [1], Nonce := 0,
            MerkleRoot := [] })
          { bucket := none, tipMem := [] } [9, 9]).tipMem = [1] ∧
        bget ((PutBlock (fun _ =>
            { Timestamp := 0, Transactions := [], PrevBlockHash := [], Hash := [1], Nonce := 0,
              MerkleRoot := [] })
            { bucket := none, tipMem := [] } [9, 9]).bucket.getD []) lastHashKey = some [1]) ∧
    (∀ t, bget (({ bucket := none, tipMem := [] } : Store).bucket.getD []) lastHashKey = some t →
        t ≠ [] →
      (([] : Bytes) = t →
          (PutBlock (fun _ =>
              { Timestamp := 0, Transactions := [], PrevBlockHash := [], Hash := [1], Nonce := 0,
                MerkleRoot := [] })
              { bucket := none, tipMem := [] } [9, 9]).tipMem = [1] ∧
          bget ((PutBlock (fun _ =>
              { Timestamp := 0, Transactions := [], PrevBlockHash := [], Hash := [1], Nonce := 0,
                MerkleRoot := [] })
              { bucket := none, tipMem := [] } [9, 9]).bucket.getD []) lastHashKey = some [1]) ∧
      (([] : Bytes) ≠ t →
          (PutBlock (fun _ =>
              { Timestamp := 0, Transactions := [], PrevBlockHash := [], Hash := [1], Nonce := 0,
                MerkleRoot := [] })
              { bucket := none, tipMem := [] } [9, 9]).tipMem =
            ({ bucket := none, tipMem := [] } : Store).tipMem ∧
          bget ((PutBlock (fun _ =>
              { Timestamp := 0, Transactions := [], PrevBlockHash := [], Hash := [1], Nonce := 0,
                MerkleRoot := [] })
              { bucket := none, tipMem := [] } [9, 9]).bucket.getD []) lastHashKey = some t)) :=
  C4_putBlock_spec
    (fun _ => { Timestamp := 0, Transactions := [], PrevBlockHash := [], Hash := [1], Nonce := 0,
                MerkleRoot := [] })
    { bucket := none, tipMem := [] } [9, 9] (by decide)

/-- C6: PutBlock is idempotent: a second application of the same serialized
block leaves the bucket and both tips exactly as after the first (the hash is
again assumed distinct from the metadata key "l"). -/
theorem C6_putBlock_idempotent (deserialize : Bytes → Block) (st : Store) (blockData : Bytes)
    (hkey : (deserialize blockData).Hash ≠ lastHashKey) :
    PutBlock deserialize (PutBlock deserialize st blockData) blockData =
      PutBlock deserialize st blockData := by
  have hb1h : bget (insertIfAbsent (st.bucket.getD []) (deserialize blockData).Hash blockData)
      (deserialize blockData).Hash ≠ none :=
    bget_insertIfAbsent_self _ _ _
  by_cases hc1 : bget (insertIfAbsent (st.bucket.getD []) (deserialize blockData).Hash blockData)
      lastHashKey = none ∨
      bget (insertIfAbsent (st.bucket.getD []) (deserialize blockData).Hash blockData)
        lastHashKey = some []
  · rw [putBlock_branch_empty deserialize st blockData hc1]
    exact putBlock_again deserialize blockData _ hkey hb1h
  · by_cases hp1 : some (deserialize blockData).PrevBlockHash =
        bget (insertIfAbsent (st.bucket.getD []) (deserialize blockData).Hash blockData)
          lastHashKey
    · rw [putBlock_branch_extend deserialize st blockData hc1 hp1]
      exact putBlock_again deserialize blockData _ hkey hb1h
    · rw [putBlock_branch_keep deserialize st blockData hc1 hp1]
      have hins2 : insertIfAbsent
          (insertIfAbsent (st.bucket.getD []) (deserialize blockData).Hash blockData)
          (deserialize blockData).Hash blockData =
          insertIfAbsent (st.bucket.getD []) (deserialize blockData).Hash blockData :=
        insertIfAbsent_idem _ _ _ hb1h
      have hkeep2 := putBlock_branch_keep deserialize
        { bucket := some (insertIfAbsent (st.bucket.getD []) (deserialize blockData).Hash
            blockData),
          tipMem := st.tipMem } blockData
        (by simp only [Option.getD_some, hins2]; exact hc1)
        (by simp only [Option.getD_some, hins2]; exact hp1)
      rw [hkeep2]
      simp only [Option.getD_some, hins2]

/-- C6 witness: idempotence at a concrete store and block. -/
theorem C6_putBlock_idempotent_witness :
    PutBlock (fun _ =>
        { Timestamp := 0, Transactions := [], PrevBlockHash := [], Hash := [1], Nonce := 0,
          MerkleRoot := [] })
      (PutBlock (fun _ =>
          { Timestamp := 0, Transactions := [], PrevBlockHash := [], Hash := [1], Nonce := 0,
            MerkleRoot := [] })
        { bucket := none, tipMem := [] } [9, 9]) [9, 9] =
      PutBlock (fun _ =>
          { Timestamp := 0, Transactions := [], PrevBlockHash := [], Hash := [1], Nonce := 0,
            MerkleRoot := [] })
        { bucket := none, tipMem := [] } [9, 9] :=
  C6_putBlock_idempotent
    (fun _ => { Timestamp := 0, Transactions := [], PrevBlockHash := [], Hash := [1], Nonce := 0,
                MerkleRoot := [] })
    { bucket := none, tipMem := [] } [9, 9] (by decide)

/-- C9: after CreateBlockchainForNode, InitBlockchainForNode, AddBlock and
PutBlock, the in-memory tip equals the value stored under lastHashKey (for
PutBlock given the invariant held before and the block hash is not the
metadata key, which holds for the 32-byte hashes the program produces). -/
theorem C9_tip_matches_store (serializeB : Block → Bytes) (deserialize : Bytes → Block) :
    (∀ genesis : Block, TipInv (CreateBlockchainForNode serializeB genesis)) ∧
    (∀ b0 : Option Bucket, TipInv (InitBlockchainForNode b0)) ∧
    (∀ (st : Store) (newBlock : Block), TipInv (AddBlock serializeB st newBlock)) ∧
    (∀ (st : Store) (blockData : Bytes), TipInv st →
      (deserialize blockData).Hash ≠ lastHashKey →
      TipInv (PutBlock deserialize st blockData)) := by
  refine ⟨?_, ?_, ?_, ?_⟩
  · intro genesis
    unfold TipInv storedTip CreateBlockchainForNode
    simp only [Option.getD_some]
    rw [bget_bput_same]
    rfl
  · intro b0
    unfold TipInv storedTip InitBlockchainForNode
    rfl
  · intro st newBlock
    unfold TipInv storedTip AddBlock
    simp only [Option.getD_some]
    rw [bget_bput_same]
    rfl
  · intro st blockData hinv hkey
    by_cases hc1 : bget (insertIfAbsent (st.bucket.getD []) (deserialize blockData).Hash
        blockData) lastHashKey = none ∨
        bget (insertIfAbsent (st.bucket.getD []) (deserialize blockData).Hash blockData)
          lastHashKey = some []
    · rw [putBlock_branch_empty deserialize st blockData hc1]
      unfold TipInv storedTip
      simp only [Option.getD_some]
      rw [bget_bput_same]
      rfl
    · by_cases hp1 : some (deserialize blockData).PrevBlockHash =
          bget (insertIfAbsent (st.bucket.getD []) (deserialize blockData).Hash blockData)
            lastHashKey
      · rw [putBlock_branch_extend deserialize st blockData hc1 hp1]
        unfold TipInv storedTip
        simp only [Option.getD_some]
        rw [bget_bput_same]
        rfl
      · rw [putBlock_branch_keep deserialize st blockData hc1 hp1]
        unfold TipInv storedTip
        simp only [Option.getD_some]
        rw [bget_insertIfAbsent_ne _ _ _ _ hkey]
        exact hinv

/-- C9 witness: the invariant at concrete stores for each operation. -/
theorem C9_tip_matches_store_witness :
    TipInv (CreateBlockchainForNode (fun _ => [])
      { Timestamp := 0, Transactions := [], PrevBlockHash := [], Hash := [1], Nonce := 0,
        MerkleRoot := [] }) ∧
    TipInv (InitBlockchainForNode none) ∧
    TipInv (AddBlock (fun _ => []) { bucket := none, tipMem := [] }
      { Timestamp := 0, Transactions := [], PrevBlockHash := [], Hash := [1], Nonce := 0,
        MerkleRoot := [] }) ∧
    TipInv (PutBlock (fun _ =>
        { Timestamp := 0, Transactions := [], PrevBlockHash := [], Hash := [1], Nonce := 0,
          MerkleRoot := [] })
      { bucket := none, tipMem := [] } [9, 9]) :=
  ⟨(C9_tip_matches_store (fun _ => []) (fun _ =>
      { Timestamp := 0, Transactions := [], PrevBlockHash := [], Hash := [1], Nonce := 0,
        MerkleRoot := [] })).1 _,
   (C9_tip_matches_store (fun _ => []) (fun _ =>
      { Timestamp := 0, Transactions := [], PrevBlockHash := [], Hash := [1], Nonce := 0,
        MerkleRoot := [] })).2.1 none,
   (C9_tip_matches_store (fun _ => []) (fun _ =>
      { Timestamp := 0, Transactions := [], PrevBlockHash := [], Hash := [1], Nonce := 0,
        MerkleRoot := [] })).2.2.1 { bucket := none, tipMem := [] } _,
   (C9_tip_matches_store (fun _ => []) (fun _ =>
      { Timestamp := 0, Transactions := [], PrevBlockHash := [], Hash := [1], Nonce := 0,
        MerkleRoot := [] })).2.2.2 { bucket := none, tipMem := [] } [9, 9] (by decide) (by decide)⟩

/-! ## UTXO scan (src/unnamed/part_000)

FindUnspentTransactions walks blocks tip → genesis, keeping
`spentTXOs : map[string][]int` keyed by the hex of the referenced txid. The
chain is the list of blocks in iterator order (tip first); the iterator's
own storage traversal is out of scope here. RIPEMD-160 of SHA-256(pubkey)
(wallet.HashPubKey, used by TxInput.UsesKey) stays an abstract parameter
`hashPubKey`. -/

abbrev SpentMap := List (Bytes × List Int)

def mapGetSpent : SpentMap → Bytes → List Int
  | [], _ => []
  | (k, vs) :: rest, key => if k = key then vs else mapGetSpent rest key

def mapAppendSpent : SpentMap → Bytes → Int → SpentMap
  | [], k, v => [(k, [v])]
  | (k0, vs) :: rest, k, v =>
      if k0 = k then (k0, vs ++ [v]) :: rest else (k0, vs) :: mapAppendSpent rest k v

/-- The labelled Outputs loop of one transaction: skip an output index listed
in spentTXOs[tx.ID]; append the whole transaction once per remaining output
locked with the key. -/
def outputsPhase (pkh : Bytes) (spent : List Int) (tx : Transaction) : List Transaction :=
  tx.Vout.enum.filterMap (fun p =>
    if (p.1 : Int) ∈ spent then none
    else if p.2.IsLockedWithKey pkh then some tx else none)

/-- The input loop of one transaction: register each input that uses the key,
unless the transaction is a coinbase. -/
def inputsPhase (hashPubKey : Bytes → Bytes) (pkh : Bytes) (spent : SpentMap)
    (tx : Transaction) : SpentMap :=
  if tx.IsCoinbase then spent
  else
    tx.Vin.foldl (fun m vin =>
      if vin.UsesKey hashPubKey pkh then mapAppendSpent m (hexEncode vin.Txid) vin.Vout else m)
      spent

def processTx (hashPubKey : Bytes → Bytes) (pkh : Bytes)
    (st : List Transaction × SpentMap) (tx : Transaction) : List Transaction × SpentMap :=
  (st.1 ++ outputsPhase pkh (mapGetSpent st.2 (hexEncode tx.ID)) tx,
   inputsPhase hashPubKey pkh st.2 tx)

def processBlock (hashPubKey : Bytes → Bytes) (pkh : Bytes)
    (st : List Transaction × SpentMap) (b : Block) : List Transaction × SpentMap :=
  b.Transactions.foldl (processTx hashPubKey pkh) st

/-- The iterator loop: process each block, stopping after a block whose
PrevBlockHash is empty (the genesis). -/
def scanBlocks (hashPubKey : Bytes → Bytes) (pkh : Bytes) :
    List Block → List Transaction × SpentMap → List Transaction
  | [], st => st.1
  | b :: rest, st =>
      let st2 := processBlock hashPubKey pkh st b
      if b.PrevBlockHash = [] then st2.1 else scanBlocks hashPubKey pkh rest st2

def FindUnspentTransactions (hashPubKey : Bytes → Bytes) (pkh : Bytes)
    (chain : List Block) : List Transaction :=
  scanBlocks hashPubKey pkh chain ([], [])

/-- FindUTXO: flatten the unspent transactions to their outputs locked with
the key. -/
def FindUTXO (hashPubKey : Bytes → Bytes) (pkh : Bytes) (chain : List Block) : List TxOutput :=
  (FindUnspentTransactions hashPubKey pkh chain).flatMap
    (fun tx => tx.Vout.filter (fun out => out.IsLockedWithKey pkh))

/-- handleGetBalance: sum of the Value fields of FindUTXO. -/
def balanceOf (hashPubKey : Bytes → Bytes) (pkh : Bytes) (chain : List Block) : Int :=
  (FindUTXO hashPubKey pkh chain).foldl (fun acc out => acc + out.Value) 0

/-! ### The specification side (from the spec text, for the C1 comparison) -/

/-- All transactions of the chain, tagged with the index of their block in
iterator order (tip-first; smaller index = later block). -/
def chainTxsFrom (k : Nat) : List Block → List (Nat × Transaction)
  | [] => []
  | b :: rest => b.Transactions.map (fun t => (k, t)) ++ chainTxsFrom (k + 1) rest

def chainTxs (chain : List Block) : List (Nat × Transaction) := chainTxsFrom 0 chain

/-- Modelled from the spec: output `outIdx` of the transaction with id `txid`
sitting in the block at position `bi` is referenced by an input of a later
transaction — one from a block nearer the tip. -/
def specReferencedLater (chain : List Block) (bi : Nat) (txid : Bytes) (outIdx : Int) : Prop :=
  ∃ b ∈ chain.take bi, ∃ t ∈ b.Transactions, ∃ i ∈ t.Vin, i.Txid = txid ∧ i.Vout = outIdx

instance (chain : List Block) (bi : Nat) (txid : Bytes) (outIdx : Int) :
    Decidable (specReferencedLater chain bi txid outIdx) := by
  unfold specReferencedLater
  infer_instance

/-- Modelled from the spec: the value contributed by one transaction — each
of its outputs locked with pkh and not referenced by any later input counts
exactly once. -/
def specTxSum (pkh : Bytes) (chain : List Block) (bi : Nat) (t : Transaction) : Int :=
  (t.Vout.enum.map (fun op =>
    if op.2.PubKeyHash = pkh ∧ ¬ specReferencedLater chain bi t.ID (op.1 : Int)
    then op.2.Value else 0)).sum

/-- Modelled from the spec: the total of the values of all outputs on the
chain locked with pkh and not spent by any later input. -/
def specUnspentSum (pkh : Bytes) (chain : List Block) : Int :=
  ((chainTxs chain).map (fun e => specTxSum pkh chain e.1 e.2)).sum

/-- C1 counterexample: a chain where one transaction pays the same key twice
(a self-send with change). FindUnspentTransactions appends the transaction
once per unspent matching output and FindUTXO re-scans all outputs of each
copy, so the balance doubles: the code reports 20 where the chain holds 10. -/
theorem C1_balance_counterexample :
    balanceOf (fun l => l) [7]
        [{ Timestamp := 0,
           Transactions :=
             [{ ID := [2], Vin := [{ Txid := [], Vout := -1, Signature := [], PubKey := [9] }],
                Vout := [{ Value := 10, PubKeyHash := [8] }] },
              { ID := [3], Vin := [{ Txid := [1], Vout := 0, Signature := [], PubKey := [7] }],
                Vout := [{ Value := 5, PubKeyHash := [7] }, { Value := 5, PubKeyHash := [7] }] }],
           PrevBlockHash := [10], Hash := [11], Nonce := 0, MerkleRoot := [] },
         { Timestamp := 0,
           Transactions :=
             [{ ID := [1], Vin := [{ Txid := [], Vout := -1, Signature := [], PubKey := [] }],
                Vout := [{ Value := 10, PubKeyHash := [7] }] }],
           PrevBlockHash := [], Hash := [10], Nonce := 0, MerkleRoot := [] }] ≠
      specUnspentSum [7]
        [{ Timestamp := 0,
           Transactions :=
             [{ ID := [2], Vin := [{ Txid := [], Vout := -1, Signature := [], PubKey := [9] }],
                Vout := [{ Value := 10, PubKeyHash := [8] }] },
              { ID := [3], Vin := [{ Txid := [1], Vout := 0, Signature := [], PubKey := [7] }],
                Vout := [{ Value := 5, PubKeyHash := [7] }, { Value := 5, PubKeyHash := [7] }] }],
           PrevBlockHash := [10], Hash := [11], Nonce := 0, MerkleRoot := [] },
         { Timestamp := 0,
           Transactions :=
             [{ ID := [1], Vin := [{ Txid := [], Vout := -1, Signature := [], PubKey := [] }],
                Vout := [{ Value := 10, PubKeyHash := [7] }] }],
           PrevBlockHash := [], Hash := [10], Nonce := 0, MerkleRoot := [] }] := by
  decide

/-! ### Side conditions for the amended C1 -/

/-- Only the last listed block (the genesis) may have an empty PrevBlockHash,
so the scan covers the whole list. -/
def LinkedScan (chain : List Block) : Prop := ∀ b ∈ chain.dropLast, b.PrevBlockHash ≠ []

/-- Each transaction has at most one output locked with the key. -/
def AtMostOneMatching (pkh : Bytes) (chain : List Block) : Prop :=
  ∀ e ∈ chainTxs chain, (e.2.Vout.filter (fun o => o.IsLockedWithKey pkh)).length ≤ 1

/-- Any input referencing an output locked with the key spends with that key
(its PubKey hashes to pkh) — true of any chain with verified signatures. -/
def RefsUseKey (hashPubKey : Bytes → Bytes) (pkh : Bytes) (chain : List Block) : Prop :=
  ∀ e ∈ chainTxs chain, ∀ i ∈ e.2.Vin, ∀ f ∈ chainTxs chain, i.Txid = f.2.ID →
    (∃ op ∈ f.2.Vout.enum, (op.1 : Int) = i.Vout ∧ op.2.PubKeyHash = pkh) →
    i.UsesKey hashPubKey pkh = true

/-- Transaction ids on the chain are non-empty (they are 32-byte hashes). -/
def IdsNonempty (chain : List Block) : Prop := ∀ e ∈ chainTxs chain, e.2.ID ≠ []

/-- Inputs only reference transactions of strictly earlier blocks (strictly
larger index in the tip-first list). -/
def RefsCrossBlocks (chain : List Block) : Prop :=
  ∀ e ∈ chainTxs chain, ∀ i ∈ e.2.Vin, ∀ f ∈ chainTxs chain, i.Txid = f.2.ID → e.1 < f.1

instance (chain : List Block) : Decidable (LinkedScan chain) := by
  unfold LinkedScan
  infer_instance

instance (pkh : Bytes) (chain : List Block) : Decidable (AtMostOneMatching pkh chain) := by
  unfold AtMostOneMatching
  infer_instance

instance (hashPubKey : Bytes → Bytes) (pkh : Bytes) (chain : List Block) :
    Decidable (RefsUseKey hashPubKey pkh chain) := by
  unfold RefsUseKey
  infer_instance

instance (chain : List Block) : Decidable (IdsNonempty chain) := by
  unfold IdsNonempty
  infer_instance

instance (chain : List Block) : Decidable (RefsCrossBlocks chain) := by
  unfold RefsCrossBlocks
  infer_instance

/-! ### Flattened-prefix bookkeeping for the scan proof -/

/-- Some processed transaction's input references output (txid, v). -/
def flatRef (P : List (Nat × Transaction)) (txid : Bytes) (v : Int) : Prop :=
  ∃ f ∈ P, ∃ i ∈ f.2.Vin, i.Txid = txid ∧ i.Vout = v

instance (P : List (Nat × Transaction)) (txid : Bytes) (v : Int) :
    Decidable (flatRef P txid v) := by
  unfold flatRef
  infer_instance

def flatTxSum (pkh : Bytes) (P : List (Nat × Transaction)) (t : Transaction) : Int :=
  (t.Vout.enum.map (fun op =>
    if op.2.PubKeyHash = pkh ∧ ¬ flatRef P t.ID (op.1 : Int) then op.2.Value else 0)).sum

def flatSpecSum (pkh : Bytes) : List (Nat × Transaction) → List (Nat × Transaction) → Int
  | _, [] => 0
  | P, e :: S => flatTxSum pkh P e.2 + flatSpecSum pkh (P ++ [e]) S

/-- What the scan's spentTXOs records from a processed prefix: an input of a
non-coinbase transaction using the key, keyed by the hex of its Txid. -/
def RegRef (hashPubKey : Bytes → Bytes) (pkh : Bytes) (P : List (Nat × Transaction))
    (key : Bytes) (v : Int) : Prop :=
  ∃ f ∈ P, f.2.IsCoinbase = false ∧ ∃ i ∈ f.2.Vin,
    i.UsesKey hashPubKey pkh = true ∧ hexEncode i.Txid = key ∧ i.Vout = v

/-- Sum of the values of the key-locked outputs over a transaction list,
with multiplicity — what FindUTXO's flattening adds up. -/
def outSum (pkh : Bytes) (u : List Transaction) : Int :=
  (u.map (fun t => ((t.Vout.filter (fun o => o.IsLockedWithKey pkh)).map TxOutput.Value).sum)).sum

/-! ### hexEncode is injective -/

theorem hexDigit_inj {a b : Nat} (h : hexDigit a = hexDigit b) : a = b := by
  unfold hexDigit at h
  by_cases ha : a < 10 <;> by_cases hb : b < 10 <;>
    · simp [ha, hb] at h
      omega

theorem hexEncode_inj : ∀ {l1 l2 : Bytes}, hexEncode l1 = hexEncode l2 → l1 = l2 := by
  intro l1
  induction l1 with
  | nil =>
      intro l2 h
      cases l2 with
      | nil => rfl
      | cons b t => simp [hexEncode] at h
  | cons a t ih =>
      intro l2 h
      cases l2 with
      | nil => simp [hexEncode] at h
      | cons b u =>
          simp only [hexEncode, List.flatMap_cons, List.cons_append, List.nil_append,
            List.cons.injEq] at h
          obtain ⟨h1, h2, h3⟩ := h
          have hd : a / 16 = b / 16 := hexDigit_inj h1
          have hm : a % 16 = b % 16 := hexDigit_inj h2
          have hab : a = b := by omega
          have ht : t = u := ih (by simpa [hexEncode] using h3)
          rw [hab, ht]

/-! ### The scan as a fold over the flattened transaction list -/

theorem scanBlocks_eq (hashPubKey : Bytes → Bytes) (pkh : Bytes) :
    ∀ (chain : List Block) (st : List Transaction × SpentMap),
      (∀ b ∈ chain.dropLast, b.PrevBlockHash ≠ []) →
      scanBlocks hashPubKey pkh chain st =
        (chain.foldl (processBlock hashPubKey pkh) st).1 := by
  intro chain
  induction chain with
  | nil => intro st _; rfl
  | cons b rest ih =>
      intro st hE
      cases hr : rest with
      | nil =>
          by_cases hb : b.PrevBlockHash = [] <;>
            simp [scanBlocks, hb, List.foldl_cons]
      | cons c r =>
          have hbne : b.PrevBlockHash ≠ [] := by
            apply hE
            rw [hr]
            simp [List.dropLast]
          have hE2 : ∀ p ∈ rest.dropLast, p.PrevBlockHash ≠ [] := by
            intro p hp
            apply hE
            rw [hr] at hp ⊢
            simp [List.dropLast] at hp ⊢
            exact Or.inr hp
          rw [← hr]
          simp only [scanBlocks, if_neg hbne, List.foldl_cons]
          exact ih _ hE2

theorem foldl_blocks_eq_flatten (hashPubKey : Bytes → Bytes) (pkh : Bytes) :
    ∀ (chain : List Block) (st : List Transaction × SpentMap),
      chain.foldl (processBlock hashPubKey pkh) st =
        ((chain.map Block.Transactions).flatten).foldl (processTx hashPubKey pkh) st := by
  intro chain
  induction chain with
  | nil => intro st; rfl
  | cons b rest ih =>
      intro st
      rw [List.foldl_cons, ih, List.map_cons, List.flatten_cons, List.foldl_append]
      rfl

theorem chainTxsFrom_map_snd :
    ∀ (k : Nat) (chain : List Block),
      (chainTxsFrom k chain).map (fun e => e.2) = (chain.map Block.Transactions).flatten := by
  intro k chain
  induction chain generalizing k with
  | nil => rfl
  | cons b rest ih =>
      simp [chainTxsFrom, List.map_append, List.map_map, Function.comp, ih]

theorem findUnspent_eq (hashPubKey : Bytes → Bytes) (pkh : Bytes) (chain : List Block)
    (hE : LinkedScan chain) :
    FindUnspentTransactions hashPubKey pkh chain =
      ((chainTxs chain).foldl (fun st e => processTx hashPubKey pkh st e.2) ([], [])).1 := by
  unfold FindUnspentTransactions chainTxs
  rw [scanBlocks_eq _ _ _ _ hE, foldl_blocks_eq_flatten, ← chainTxsFrom_map_snd 0 chain,
    List.foldl_map]

theorem foldl_add_value :
    ∀ (xs : List TxOutput) (a : Int),
      xs.foldl (fun acc o => acc + o.Value) a = a + (xs.map TxOutput.Value).sum := by
  intro xs
  induction xs with
  | nil => intro a; simp
  | cons o rest ih =>
      intro a
      rw [List.foldl_cons, ih, List.map_cons, List.sum_cons]
      ring

theorem sum_map_flatMap (u : List Transaction) (g : Transaction → List TxOutput) :
    ((u.flatMap g).map TxOutput.Value).sum =
      (u.map (fun t => ((g t).map TxOutput.Value).sum)).sum := by
  induction u with
  | nil => rfl
  | cons t rest ih =>
      simp [List.flatMap_cons, List.map_append, List.sum_append, ih]

theorem balance_eq_outSum (hashPubKey : Bytes → Bytes) (pkh : Bytes) (chain : List Block) :
    balanceOf hashPubKey pkh chain =
      outSum pkh (FindUnspentTransactions hashPubKey pkh chain) := by
  unfold balanceOf FindUTXO outSum
  rw [foldl_add_value]
  rw [sum_map_flatMap]
  simp

/-! ### spentTXOs membership -/

theorem mem_mapGetSpent_append (m : SpentMap) (k : Bytes) (v : Int) (key : Bytes) (w : Int) :
    w ∈ mapGetSpent (mapAppendSpent m k v) key ↔
      (key = k ∧ w = v) ∨ w ∈ mapGetSpent m key := by
  induction m with
  | nil =>
      by_cases hk : k = key
      · simp only [mapAppendSpent, mapGetSpent, if_pos hk]
        subst hk
        simp [List.mem_singleton]
      · simp [mapAppendSpent, mapGetSpent, hk]
        tauto
  | cons p rest ih =>
      obtain ⟨k0, vs⟩ := p
      by_cases h0 : k0 = k
      · subst h0
        by_cases hk : k0 = key
        · subst hk
          simp [mapAppendSpent, mapGetSpent]
          tauto
        · simp [mapAppendSpent, mapGetSpent, hk]
          intro h
          exact absurd h.symm hk
      · by_cases hk : k0 = key
        · subst hk
          simp [mapAppendSpent, h0, mapGetSpent]
        · simp [mapAppendSpent, h0, mapGetSpent, hk, ih]

theorem mem_foldl_reg (hashPubKey : Bytes → Bytes) (pkh : Bytes) (key : Bytes) (w : Int) :
    ∀ (vins : List TxInput) (m : SpentMap),
      (w ∈ mapGetSpent
          (vins.foldl (fun m vin =>
            if vin.UsesKey hashPubKey pkh then mapAppendSpent m (hexEncode vin.Txid) vin.Vout
            else m) m) key) ↔
        (w ∈ mapGetSpent m key ∨
          ∃ i ∈ vins, i.UsesKey hashPubKey pkh = true ∧ hexEncode i.Txid = key ∧ i.Vout = w) := by
  intro vins
  induction vins with
  | nil => intro m; simp
  | cons i rest ih =>
      intro m
      rw [List.foldl_cons, ih]
      by_cases hu : i.UsesKey hashPubKey pkh
      · rw [if_pos hu, mem_mapGetSpent_append]
        constructor
        · rintro ((⟨hkey, hw⟩ | hm) | ⟨i2, hi2, h⟩)
          · exact Or.inr ⟨i, List.mem_cons_self i rest, hu, hkey.symm, hw.symm⟩
          · exact Or.inl hm
          · exact Or.inr ⟨i2, List.mem_cons_of_mem _ hi2, h⟩
        · rintro (hm | ⟨i2, hi2, h1, h2, h3⟩)
          · exact Or.inl (Or.inr hm)
          · rcases List.mem_cons.mp hi2 with rfl | hi2
            · exact Or.inl (Or.inl ⟨h2.symm, h3.symm⟩)
            · exact Or.inr ⟨i2, hi2, h1, h2, h3⟩
      · rw [if_neg hu]
        constructor
        · rintro (hm | ⟨i2, hi2, h⟩)
          · exact Or.inl hm
          · exact Or.inr ⟨i2, List.mem_cons_of_mem _ hi2, h⟩
        · rintro (hm | ⟨i2, hi2, h1, h2, h3⟩)
          · exact Or.inl hm
          · rcases List.mem_cons.mp hi2 with rfl | hi2
            · exact absurd h1 (by simpa using hu)
            · exact Or.inr ⟨i2, hi2, h1, h2, h3⟩

theorem mem_inputsPhase (hashPubKey : Bytes → Bytes) (pkh : Bytes) (spent : SpentMap)
    (tx : Transaction) (key : Bytes) (w : Int) :
    w ∈ mapGetSpent (inputsPhase hashPubKey pkh spent tx) key ↔
      (w ∈ mapGetSpent spent key ∨
        (tx.IsCoinbase = false ∧ ∃ i ∈ tx.Vin, i.UsesKey hashPubKey pkh = true ∧
          hexEncode i.Txid = key ∧ i.Vout = w)) := by
  unfold inputsPhase
  by_cases hcb : tx.IsCoinbase
  · simp [hcb]
  · rw [if_neg hcb, mem_foldl_reg]
    have hcbf : tx.IsCoinbase = false := by simpa using hcb
    simp [hcbf]

theorem regref_snoc (hashPubKey : Bytes → Bytes) (pkh : Bytes)
    (P : List (Nat × Transaction)) (e : Nat × Transaction) (key : Bytes) (w : Int) :
    RegRef hashPubKey pkh (P ++ [e]) key w ↔
      (RegRef hashPubKey pkh P key w ∨
        (e.2.IsCoinbase = false ∧ ∃ i ∈ e.2.Vin, i.UsesKey hashPubKey pkh = true ∧
          hexEncode i.Txid = key ∧ i.Vout = w)) := by
  unfold RegRef
  constructor
  · rintro ⟨f, hf, hcb, i, hi, h⟩
    rcases List.mem_append.mp hf with hf | hf
    · exact Or.inl ⟨f, hf, hcb, i, hi, h⟩
    · rcases List.mem_singleton.mp hf with rfl
      exact Or.inr ⟨hcb, i, hi, h⟩
  · rintro (⟨f, hf, hcb, i, hi, h⟩ | ⟨hcb, i, hi, h⟩)
    · exact ⟨f, List.mem_append.mpr (Or.inl hf), hcb, i, hi, h⟩
    · exact ⟨e, List.mem_append.mpr (Or.inr (List.mem_singleton.mpr rfl)), hcb, i, hi, h⟩

/-! ### The per-transaction counting argument -/

theorem filterMap_two_ite (l : List (Nat × TxOutput)) (sp : List Int) (pkh : Bytes)
    (t : Transaction) :
    (l.filterMap (fun p =>
        if (p.1 : Int) ∈ sp then none
        else if p.2.IsLockedWithKey pkh then some t else none)) =
      List.replicate
        (l.countP (fun p => !decide ((p.1 : Int) ∈ sp) && p.2.IsLockedWithKey pkh)) t := by
  induction l with
  | nil => rfl
  | cons p rest ih =>
      by_cases hm : (p.1 : Int) ∈ sp <;> by_cases hl : p.2.IsLockedWithKey pkh <;>
        simp [List.filterMap_cons, List.countP_cons, hm, hl, ih, List.replicate_succ]

theorem outSum_append (pkh : Bytes) (u w : List Transaction) :
    outSum pkh (u ++ w) = outSum pkh u + outSum pkh w := by
  simp [outSum, List.map_append, List.sum_append]

theorem outSum_replicate (pkh : Bytes) (n : Nat) (t : Transaction) :
    outSum pkh (List.replicate n t) =
      (n : Int) * ((t.Vout.filter (fun o => o.IsLockedWithKey pkh)).map TxOutput.Value).sum := by
  induction n with
  | zero => simp [outSum]
  | succ n ih =>
      rw [List.replicate_succ]
      simp only [outSum, List.map_cons, List.sum_cons] at ih ⊢
      rw [ih]
      push_cast
      ring

theorem snd_mem_enumFrom {α : Type} :
    ∀ (l : List α) (k : Nat) (p : Nat × α), p ∈ List.enumFrom k l → p.2 ∈ l := by
  intro l
  induction l with
  | nil => intro k p hp; simp at hp
  | cons a t ih =>
      intro k p hp
      rw [List.enumFrom_cons] at hp
      rcases List.mem_cons.mp hp with rfl | hp
      · exact List.mem_cons_self _ _
      · exact List.mem_cons_of_mem _ (ih (k + 1) p hp)

theorem coinbase_vin_txid (tx : Transaction) (h : tx.IsCoinbase = true) :
    ∀ i ∈ tx.Vin, i.Txid = [] := by
  unfold Transaction.IsCoinbase at h
  simp only [Bool.and_eq_true, decide_eq_true_eq] at h
  obtain ⟨⟨hlen, htxid⟩, _⟩ := h
  intro i hi
  cases hv : tx.Vin with
  | nil => rw [hv] at hi; simp at hi
  | cons x rest =>
      rw [hv] at hlen hi
      simp only [List.length_cons] at hlen
      have hrest : rest = [] := List.length_eq_zero.mp (by omega)
      subst hrest
      have hix : i = x := by simpa using hi
      subst hix
      rw [hv] at htxid
      simpa [List.headD] using htxid

/-- The counting core: with at most one output locked with the key, the
number of surviving copies times the locked-value sum equals the
specification's per-output conditional sum, whenever the skip condition and
the reference predicate agree on locked outputs. -/
theorem core_count (pkh : Bytes) (sp : List Int) (Ref : Int → Prop) [DecidablePred Ref] :
    ∀ (outs : List TxOutput) (k : Nat),
      (outs.filter (fun o => o.IsLockedWithKey pkh)).length ≤ 1 →
      (∀ p ∈ List.enumFrom k outs, p.2.IsLockedWithKey pkh = true →
        ((p.1 : Int) ∈ sp ↔ Ref (p.1 : Int))) →
      ((List.enumFrom k outs).countP
            (fun p => !decide ((p.1 : Int) ∈ sp) && p.2.IsLockedWithKey pkh) : Int) *
          ((outs.filter (fun o => o.IsLockedWithKey pkh)).map TxOutput.Value).sum =
        ((List.enumFrom k outs).map (fun op =>
          if op.2.PubKeyHash = pkh ∧ ¬ Ref (op.1 : Int) then op.2.Value else 0)).sum := by
  intro outs
  induction outs with
  | nil => intro k _ _; simp
  | cons o rest ih =>
      intro k hA hbr
      rw [List.enumFrom_cons]
      by_cases hlock : o.IsLockedWithKey pkh
      · have hlockP : o.PubKeyHash = pkh := by
          simpa [TxOutput.IsLockedWithKey] using hlock
        rw [List.filter_cons_of_pos (by simpa using hlock)] at hA ⊢
        have hrestnil : rest.filter (fun o2 => o2.IsLockedWithKey pkh) = [] := by
          simp only [List.length_cons] at hA
          exact List.length_eq_zero.mp (by omega)
        have hnorest : ∀ o2 ∈ rest, ¬ o2.IsLockedWithKey pkh = true := by
          intro o2 ho2
          simpa using List.filter_eq_nil_iff.mp hrestnil o2 ho2
        have hcount0 : (List.enumFrom (k + 1) rest).countP
            (fun p => !decide ((p.1 : Int) ∈ sp) && p.2.IsLockedWithKey pkh) = 0 := by
          rw [List.countP_eq_zero]
          intro p hp
          simp only [Bool.and_eq_true, not_and]
          intro _
          simpa using hnorest p.2 (snd_mem_enumFrom rest (k + 1) p hp)
        have hsum0 : ((List.enumFrom (k + 1) rest).map (fun op =>
            if op.2.PubKeyHash = pkh ∧ ¬ Ref (op.1 : Int) then op.2.Value else 0)).sum = 0 := by
          apply List.sum_eq_zero
          intro x hx
          rcases List.mem_map.mp hx with ⟨p, hp, rfl⟩
          rw [if_neg]
          intro hcontr
          exact hnorest p.2 (snd_mem_enumFrom rest (k + 1) p hp)
            (by simp [TxOutput.IsLockedWithKey, hcontr.1])
        rw [hrestnil, List.countP_cons, hcount0]
        simp only [List.map_cons, List.sum_cons, List.map_nil, List.sum_nil]
        rw [hsum0]
        have hbro := hbr (k, o)
          (by rw [List.enumFrom_cons]; exact List.mem_cons_self _ _)
          (by simpa using hlock)
        by_cases hmem : ((k : Int) ∈ sp)
        · have href : Ref (k : Int) := hbro.mp hmem
          simp [hmem, hlockP, href, hlock]
        · have href : ¬ Ref (k : Int) := fun hr => hmem (hbro.mpr hr)
          simp [hmem, hlockP, href, hlock]
      · have hlockP : ¬ o.PubKeyHash = pkh := by
          simpa [TxOutput.IsLockedWithKey] using hlock
        have hlockF : o.IsLockedWithKey pkh = false := by simpa using hlock
        rw [List.filter_cons_of_neg (by simpa using hlock)] at hA
        have hbr2 : ∀ p ∈ List.enumFrom (k + 1) rest, p.2.IsLockedWithKey pkh = true →
            ((p.1 : Int) ∈ sp ↔ Ref (p.1 : Int)) := by
          intro p hp
          exact hbr p (by rw [List.enumFrom_cons]; exact List.mem_cons_of_mem _ hp)
        have hih := ih (k + 1) hA hbr2
        rw [List.filter_cons_of_neg (by simpa using hlock)]
        simp only [List.countP_cons, List.map_cons, List.sum_cons]
        simpa [hlockF, hlockP] using hih

theorem outputsPhase_eq_flatTxSum (pkh : Bytes) (P : List (Nat × Transaction))
    (spent : SpentMap) (t : Transaction)
    (hA : (t.Vout.filter (fun o => o.IsLockedWithKey pkh)).length ≤ 1)
    (hbr : ∀ p ∈ t.Vout.enum, p.2.IsLockedWithKey pkh = true →
      ((p.1 : Int) ∈ mapGetSpent spent (hexEncode t.ID) ↔ flatRef P t.ID (p.1 : Int))) :
    outSum pkh (outputsPhase pkh (mapGetSpent spent (hexEncode t.ID)) t) = flatTxSum pkh P t := by
  unfold outputsPhase flatTxSum
  rw [filterMap_two_ite, outSum_replicate]
  exact core_count pkh _ (flatRef P t.ID) t.Vout 0 hA hbr

/-- The scan invariant: folding the per-transaction step over a list S, with
the spent map recording exactly the registrations of a prefix P, adds to the
unspent-sum exactly the flattened specification sum of S relative to P. -/
theorem fold_invariant (hashPubKey : Bytes → Bytes) (pkh : Bytes) :
    ∀ (S P : List (Nat × Transaction)) (u : List Transaction) (spent : SpentMap),
      (∀ e ∈ P ++ S, (e.2.Vout.filter (fun o => o.IsLockedWithKey pkh)).length ≤ 1) →
      (∀ e ∈ P ++ S, ∀ i ∈ e.2.Vin, ∀ f ∈ P ++ S, i.Txid = f.2.ID →
        (∃ op ∈ f.2.Vout.enum, (op.1 : Int) = i.Vout ∧ op.2.PubKeyHash = pkh) →
        i.UsesKey hashPubKey pkh = true) →
      (∀ e ∈ P ++ S, e.2.ID ≠ []) →
      (∀ key w, w ∈ mapGetSpent spent key ↔ RegRef hashPubKey pkh P key w) →
      outSum pkh ((S.foldl (fun st e => processTx hashPubKey pkh st e.2) (u, spent)).1) =
        outSum pkh u + flatSpecSum pkh P S := by
  intro S
  induction S with
  | nil =>
      intro P u spent _ _ _ _
      simp [flatSpecSum]
  | cons e S2 ih =>
      intro P u spent hA hB hCne hspent
      have heP : e ∈ P ++ e :: S2 := List.mem_append.mpr (Or.inr (List.mem_cons_self _ _))
      have hbr : ∀ p ∈ e.2.Vout.enum, p.2.IsLockedWithKey pkh = true →
          ((p.1 : Int) ∈ mapGetSpent spent (hexEncode e.2.ID) ↔
            flatRef P e.2.ID (p.1 : Int)) := by
        intro p hp hlk
        rw [hspent]
        constructor
        · rintro ⟨f, hf, hcb, i, hi, hu, hhex, hv⟩
          exact ⟨f, hf, i, hi, hexEncode_inj hhex, hv⟩
        · rintro ⟨f, hf, i, hi, htx, hv⟩
          have hfP : f ∈ P ++ e :: S2 := List.mem_append.mpr (Or.inl hf)
          refine ⟨f, hf, ?_, i, hi, ?_, congrArg hexEncode htx, hv⟩
          · cases hfc : f.2.IsCoinbase with
            | false => rfl
            | true =>
                have := coinbase_vin_txid f.2 hfc i hi
                rw [this] at htx
                exact absurd htx.symm (hCne e heP)
          · refine hB f hfP i hi e heP htx ⟨p, hp, hv.symm, ?_⟩
            simpa [TxOutput.IsLockedWithKey] using hlk
      have hassoc : P ++ e :: S2 = (P ++ [e]) ++ S2 := by simp
      have hstep := ih (P ++ [e])
        (u ++ outputsPhase pkh (mapGetSpent spent (hexEncode e.2.ID)) e.2)
        (inputsPhase hashPubKey pkh spent e.2)
        (by rw [← hassoc]; exact hA) (by rw [← hassoc]; exact hB) (by rw [← hassoc]; exact hCne)
        (by
          intro key w
          rw [mem_inputsPhase, regref_snoc, hspent])
      rw [List.foldl_cons]
      simp only [processTx] at hstep ⊢
      rw [hstep, outSum_append,
        outputsPhase_eq_flatTxSum pkh P spent e.2 (hA e heP) hbr]
      show outSum pkh u + flatTxSum pkh P e.2 + flatSpecSum pkh (P ++ [e]) S2 = _
      rw [show flatSpecSum pkh P (e :: S2) =
        flatTxSum pkh P e.2 + flatSpecSum pkh (P ++ [e]) S2 from rfl]
      ring

/-! ### Relating the flattened prefix to block positions -/

theorem chainTxsFrom_mem :
    ∀ (chain : List Block) (k : Nat) (e : Nat × Transaction),
      e ∈ chainTxsFrom k chain ↔
        ∃ j b, chain.get? j = some b ∧ e.1 = k + j ∧ e.2 ∈ b.Transactions := by
  intro chain
  induction chain with
  | nil => intro k e; simp [chainTxsFrom]
  | cons b0 rest ih =>
      intro k e
      obtain ⟨e1, e2⟩ := e
      simp only [chainTxsFrom, List.mem_append, List.mem_map]
      constructor
      · rintro (⟨t, ht, heq⟩ | h)
        · obtain ⟨h1, h2⟩ := Prod.mk.injEq .. ▸ heq
          exact ⟨0, b0, by simp, by omega, by rw [← h2]; exact ht⟩
        · obtain ⟨j, bb, hg, he, hm⟩ := (ih (k + 1) (e1, e2)).mp h
          exact ⟨j + 1, bb, by simpa using hg, by simp at he ⊢; omega, hm⟩
      · rintro ⟨j, bb, hg, he, hm⟩
        cases j with
        | zero =>
            left
            have hb : bb = b0 := by
              have := hg
              simp at this
              exact this.symm
            refine ⟨e2, by rw [← hb]; exact hm, ?_⟩
            have : e1 = k := by omega
            rw [this]
        | succ j =>
            right
            exact (ih (k + 1) (e1, e2)).mpr ⟨j, bb, by simpa using hg, by simp; omega, hm⟩

theorem chainTxsFrom_le (chain : List Block) (k : Nat) (e : Nat × Transaction)
    (h : e ∈ chainTxsFrom k chain) : k ≤ e.1 := by
  obtain ⟨j, b, _, he, _⟩ := (chainTxsFrom_mem chain k e).mp h
  omega

theorem chainTxsFrom_sorted :
    ∀ (chain : List Block) (k : Nat),
      (chainTxsFrom k chain).Pairwise (fun a b => a.1 ≤ b.1) := by
  intro chain
  induction chain with
  | nil => intro k; simp [chainTxsFrom]
  | cons b0 rest ih =>
      intro k
      unfold chainTxsFrom
      rw [List.pairwise_append]
      refine ⟨?_, ih (k + 1), ?_⟩
      · rw [List.pairwise_map]
        have : ∀ (ts : List Transaction),
            ts.Pairwise (fun a b : Transaction => ((k, a) : Nat × Transaction).1 ≤ (k, b).1) := by
          intro ts
          induction ts with
          | nil => simp
          | cons t ts iht =>
              rw [List.pairwise_cons]
              exact ⟨fun b _ => le_refl k, iht⟩
        exact this b0.Transactions
      · intro a ha b hb
        have ha1 : a.1 = k := by
          rcases List.mem_map.mp ha with ⟨t, _, rfl⟩
          rfl
        have hb1 : k + 1 ≤ b.1 := chainTxsFrom_le rest (k + 1) b hb
        omega

theorem mem_take_iff_get2 {α : Type} :
    ∀ (l : List α) (n : Nat) (a : α), a ∈ l.take n ↔ ∃ j, j < n ∧ l.get? j = some a := by
  intro l
  induction l with
  | nil => intro n a; simp
  | cons x t ih =>
      intro n a
      cases n with
      | zero => simp
      | succ n =>
          simp only [List.take_succ_cons, List.mem_cons]
          constructor
          · rintro (rfl | h)
            · exact ⟨0, Nat.succ_pos n, rfl⟩
            · obtain ⟨j, hj, hg⟩ := (ih n a).mp h
              exact ⟨j + 1, by omega, by simpa using hg⟩
          · rintro ⟨j, hj, hg⟩
            cases j with
            | zero =>
                left
                have : x = a := by simpa using hg
                exact this.symm
            | succ j =>
                right
                exact (ih n a).mpr ⟨j, by omega, by simpa using hg⟩

theorem flatref_iff_specref (chain : List Block) (hD : RefsCrossBlocks chain)
    (P S : List (Nat × Transaction)) (e : Nat × Transaction)
    (hsplit : chainTxs chain = P ++ e :: S) (j : Int) :
    flatRef P e.2.ID j ↔ specReferencedLater chain e.1 e.2.ID j := by
  have heL : e ∈ chainTxs chain := by
    rw [hsplit]
    exact List.mem_append.mpr (Or.inr (List.mem_cons_self _ _))
  constructor
  · rintro ⟨f, hf, i, hi, htx, hv⟩
    have hfL : f ∈ chainTxs chain := by
      rw [hsplit]
      exact List.mem_append.mpr (Or.inl hf)
    have hlt : f.1 < e.1 := hD f hfL i hi e heL htx
    obtain ⟨jb, bb, hg, hfe, hm⟩ := (chainTxsFrom_mem chain 0 f).mp hfL
    refine ⟨bb, ?_, f.2, hm, i, hi, htx, hv⟩
    exact (mem_take_iff_get2 chain e.1 bb).mpr ⟨jb, by omega, hg⟩
  · rintro ⟨b, hb, t, ht, i, hi, htx, hv⟩
    obtain ⟨jb, hjb, hg⟩ := (mem_take_iff_get2 chain e.1 b).mp hb
    have hmemL : ((jb, t) : Nat × Transaction) ∈ chainTxs chain :=
      (chainTxsFrom_mem chain 0 (jb, t)).mpr ⟨jb, b, hg, by simp, ht⟩
    rw [hsplit] at hmemL
    rcases List.mem_append.mp hmemL with hP | hES
    · exact ⟨(jb, t), hP, i, hi, htx, hv⟩
    · exfalso
      rcases List.mem_cons.mp hES with heq | hS
      · have : jb = e.1 := congrArg Prod.fst heq
        omega
      · have hsorted := chainTxsFrom_sorted chain 0
        have hsorted2 : (P ++ e :: S).Pairwise (fun a b : Nat × Transaction => a.1 ≤ b.1) := by
          rw [← hsplit]
          exact hsorted
        rcases List.pairwise_append.mp hsorted2 with ⟨_, hpair2, _⟩
        have hle : e.1 ≤ (jb, t).1 := (List.pairwise_cons.mp hpair2).1 (jb, t) hS
        simp only at hle
        omega

theorem flatSpec_eq_specSum (pkh : Bytes) (chain : List Block) (hD : RefsCrossBlocks chain) :
    ∀ (S P : List (Nat × Transaction)), chainTxs chain = P ++ S →
      flatSpecSum pkh P S = (S.map (fun e => specTxSum pkh chain e.1 e.2)).sum := by
  intro S
  induction S with
  | nil => intro P _; simp [flatSpecSum]
  | cons e S2 ih =>
      intro P hsplit
      rw [show flatSpecSum pkh P (e :: S2) =
        flatTxSum pkh P e.2 + flatSpecSum pkh (P ++ [e]) S2 from rfl]
      rw [List.map_cons, List.sum_cons]
      have h1 : flatTxSum pkh P e.2 = specTxSum pkh chain e.1 e.2 := by
        unfold flatTxSum specTxSum
        refine congrArg List.sum (List.map_congr_left ?_)
        intro op hop
        have hiff := flatref_iff_specref chain hD P S2 e hsplit (op.1 : Int)
        simp only [hiff]
      rw [h1, ih (P ++ [e]) (by rw [hsplit]; simp)]

/-! ### C1: claim and amended claim -/

/-- C1 amended: the reported balance equals the spec's unspent-output sum for
chains where (i) the scan covers the list (only the last block has an empty
PrevBlockHash), (ii) each transaction has at most one output locked with the
key, (iii) inputs referencing a key-locked output spend with that key,
(iv) transaction ids are non-empty, and (v) inputs reference strictly earlier
blocks. Without (ii) the code double-counts, as the counterexample shows. -/
theorem C1_balance_amended (hashPubKey : Bytes → Bytes) (pkh : Bytes) (chain : List Block)
    (hE : LinkedScan chain) (hA : AtMostOneMatching pkh chain)
    (hB : RefsUseKey hashPubKey pkh chain) (hCne : IdsNonempty chain)
    (hD : RefsCrossBlocks chain) :
    balanceOf hashPubKey pkh chain = specUnspentSum pkh chain := by
  rw [balance_eq_outSum, findUnspent_eq hashPubKey pkh chain hE]
  have hmain := fold_invariant hashPubKey pkh (chainTxs chain) [] [] []
    (by intro e he; exact hA e (by simpa using he))
    (by
      intro e he i hi f hf
      exact hB e (by simpa using he) i hi f (by simpa using hf))
    (by intro e he; exact hCne e (by simpa using he))
    (by intro key w; simp [mapGetSpent, RegRef])
  rw [hmain, flatSpec_eq_specSum pkh chain hD (chainTxs chain) [] rfl]
  simp [outSum, specUnspentSum]

/-- C1 witness: a single-block chain holding one coinbase paying the key. -/
theorem C1_balance_amended_witness :
    balanceOf (fun l => l) [7]
        [{ Timestamp := 0,
           Transactions :=
             [{ ID := [1], Vin := [{ Txid := [], Vout := -1, Signature := [], PubKey := [] }],
                Vout := [{ Value := 10, PubKeyHash := [7] }] }],
           PrevBlockHash := [], Hash := [10], Nonce := 0, MerkleRoot := [] }] =
      specUnspentSum [7]
        [{ Timestamp := 0,
           Transactions :=
             [{ ID := [1], Vin := [{ Txid := [], Vout := -1, Signature := [], PubKey := [] }],
                Vout := [{ Value := 10, PubKeyHash := [7] }] }],
           PrevBlockHash := [], Hash := [10], Nonce := 0, MerkleRoot := [] }] :=
  C1_balance_amended (fun l => l) [7]
    [{ Timestamp := 0,
       Transactions :=
         [{ ID := [1], Vin := [{ Txid := [], Vout := -1, Signature := [], PubKey := [] }],
            Vout := [{ Value := 10, PubKeyHash := [7] }] }],
       PrevBlockHash := [], Hash := [10], Nonce := 0, MerkleRoot := [] }]
    (by decide) (by decide) (by decide) (by decide) (by decide)

end MiniChain
